import Mathlib

/-!
# A type-erased callable container with small-buffer storage

Shallow embedding of `storage.h` and `function.h`.

* A concrete callable type `T` is identified by a `TypeId`; what the C++
  compiler knows about `T` (its `sizeof`, `alignof`, whether its move
  constructor is `noexcept`, and the behaviour of its call operator, copy
  constructor and move constructor) is recorded in a `CType`.
* Objects of type `storage<R, Args...>` live in an object store indexed by
  their address (`Nat`); pointers `storage_t*` are such addresses.
* The free store is an explicit list of cells; address `0` is the null
  pointer and block `a + 1` is cell `a` of the list.
* Every operation yields an `Outcome`: a normal return, a thrown C++
  exception, or `fault` (undefined behaviour / `std::terminate`).
-/

namespace FunctionTask

/-- Identity of a concrete callable type `T`. -/
abbrev TypeId := Nat

/-- C++ exceptions that can travel through the container. -/
inductive Exn where
  | bad_function_call
  | bad_alloc
  | other (code : Nat)
  deriving DecidableEq, Repr

/-- The diagnostic of `bad_function_call::what()` (storage.h:10-12). -/
def bad_function_call_what : String := "bad function call"

/-- What the compiler knows about a concrete callable type `T` whose objects
have states in `σ`, called with arguments `α` and returning `ρ`. -/
structure CType (σ α ρ : Type) where
  /-- Value of `sizeof(T)`. -/
  size : Nat
  /-- Value of `alignof(T)`. -/
  align : Nat
  /-- Value of `std::is_nothrow_move_constructible<T>::value`. -/
  nothrow_move : Bool
  /-- The call operator: new object state and the returned value or thrown exception. -/
  call : σ → α → σ × Except Exn ρ
  /-- The copy constructor `T(T const&)`: the new object, or a thrown exception. -/
  copy_ctor : σ → Except Exn σ
  /-- The move constructor `T(T&&)`: the new object and the state left in the source. -/
  move_ctor : σ → Except Exn (σ × σ)

/-- The compilation environment: platform constants and the callable types. -/
structure Env (σ α ρ : Type) where
  /-- Value of `sizeof(void*)`. -/
  ptr_size : Nat
  /-- Value of `alignof(void*)`. -/
  ptr_align : Nat
  /-- The callable types of the program. -/
  types : TypeId → CType σ α ρ

/-- Constant `INPLACE_BUFFER_SIZE` (storage.h:15). -/
def INPLACE_BUFFER_SIZE {σ α ρ : Type} (E : Env σ α ρ) : Nat := E.ptr_size

/-- Constant `INPLACE_BUFFER_ALIGNMENT` (storage.h:16). -/
def INPLACE_BUFFER_ALIGNMENT {σ α ρ : Type} (E : Env σ α ρ) : Nat := E.ptr_align

/-- The placement predicate `fits_small_storage<T>` (storage.h:24-28). -/
def fits_small_storage {σ α ρ : Type} (E : Env σ α ρ) (t : TypeId) : Bool :=
  decide ((E.types t).size ≤ INPLACE_BUFFER_SIZE E)
    && decide (INPLACE_BUFFER_ALIGNMENT E % (E.types t).align = 0)
    && (E.types t).nothrow_move

/-- A pointer to a dispatch table: the empty table of the signature, or the
table `function_traits<T>::get_type_descriptor<R, Args...>()` of a type. -/
inductive DescPtr where
  | empty
  | of (t : TypeId)
  deriving DecidableEq, Repr

/-- Contents of an `inplace_buffer`: an object constructed in place, or the
bytes of a pointer (`0` is the null pointer, also the value-initialised buffer). -/
inductive Buf (σ : Type) where
  | obj (v : σ)
  | ptr (p : Nat)
  deriving DecidableEq, Repr

/-- The struct `storage<R, Args...>` (storage.h:36-87): members `buf` and `desc`. -/
structure storage (σ : Type) where
  buf : Buf σ
  desc : DescPtr
  deriving DecidableEq, Repr

/-- The machine state: the storage objects by address (`none` once destroyed),
the cells of the free store, and the number of blocks the allocator can hand out. -/
structure World (σ : Type) where
  objs : List (Option (storage σ))
  heap : List (Option σ)
  cap : Nat
  deriving DecidableEq, Repr

/-- Result of running an operation. -/
inductive Outcome (σ β : Type) where
  | ret (w : World σ) (b : β)
  | raise (w : World σ) (e : Exn)
  | fault
  deriving DecidableEq, Repr

/-- What the caller observes of an outcome: the returned value or the thrown
exception; `none` for undefined behaviour. -/
def Outcome.result {σ β : Type} : Outcome σ β → Option (Except Exn β)
  | .ret _ b => some (.ok b)
  | .raise _ e => some (.error e)
  | .fault => none

/-- The state after an outcome, when there is one. -/
def Outcome.world {σ β : Type} : Outcome σ β → Option (World σ)
  | .ret w _ => some w
  | .raise w _ => some w
  | .fault => none

/-- The state without any object, with an allocator of `cap` blocks. -/
def World.init (σ : Type) (cap : Nat) : World σ := ⟨[], [], cap⟩

/-- Dereference a `storage_t*`: the live object at address `i`. -/
def World.load {σ : Type} (w : World σ) (i : Nat) : Option (storage σ) :=
  w.objs.getD i none

/-- Overwrite the object at address `i`. -/
def World.store {σ : Type} (w : World σ) (i : Nat) (s : storage σ) : World σ :=
  { w with objs := w.objs.set i (some s) }

/-- A new object, placed at the next free address `w.objs.length`. -/
def World.push {σ : Type} (w : World σ) (s : storage σ) : World σ :=
  { w with objs := w.objs ++ [some s] }

/-- End of the lifetime of the object at address `i`. -/
def World.kill {σ : Type} (w : World σ) (i : Nat) : World σ :=
  { w with objs := w.objs.set i none }

/-- Read through a heap pointer; `none` for null and for a block that is not live. -/
def World.heap_read {σ : Type} (w : World σ) : Nat → Option σ
  | 0 => none
  | a + 1 => w.heap.getD a none

/-- Write through a heap pointer. -/
def World.heap_write {σ : Type} (w : World σ) (p : Nat) (v : σ) : World σ :=
  match p with
  | 0 => w
  | a + 1 => { w with heap := w.heap.set a (some v) }

/-- Expression `new T(x)`: the block is obtained first (`bad_alloc` when the
allocator is exhausted), then the object is constructed in it; when the
constructor throws, the block is released and the exception propagates. -/
def World.heap_new {σ : Type} (w : World σ) (ctor : Except Exn σ) : Except Exn (Nat × World σ) :=
  if w.heap.length < w.cap then
    match ctor with
    | .ok c => .ok (w.heap.length + 1, { w with heap := w.heap ++ [some c] })
    | .error e => .error e
  else .error .bad_alloc

/-- Expression `delete p`: nothing for null, frees a live block, `none`
(undefined behaviour) for a block that is not live. -/
def World.heap_delete {σ : Type} (w : World σ) (p : Nat) : Option (World σ) :=
  match p with
  | 0 => some w
  | a + 1 =>
    match w.heap.getD a none with
    | some _ => some { w with heap := w.heap.set a none }
    | none => none

/-- Number of allocations performed so far (blocks are never reused). -/
def World.allocs {σ : Type} (w : World σ) : Nat := w.heap.length

/-- Member `storage::get_static<T>` (storage.h:160-170): the buffer viewed as a `T`. -/
def storage.get_static {σ : Type} (s : storage σ) : Option σ :=
  match s.buf with
  | .obj v => some v
  | .ptr _ => none

/-- Member `storage::get_dynamic<T>` (storage.h:183-193): the buffer viewed as a `T*`. -/
def storage.get_dynamic {σ : Type} (s : storage σ) : Option Nat :=
  match s.buf with
  | .ptr p => some p
  | .obj _ => none

/-- Member `storage::set_static` once the moved object is known (storage.h:172-176). -/
def storage.set_static {σ : Type} (s : storage σ) (v : σ) : storage σ :=
  { s with buf := .obj v }

/-- Member `storage::set_dynamic` (storage.h:178-181). -/
def storage.set_dynamic {σ : Type} (s : storage σ) (p : Nat) : storage σ :=
  { s with buf := .ptr p }

/-- Member `storage::check_type<T>` (storage.h:195-205). -/
def storage.check_type {σ : Type} (s : storage σ) (t : TypeId) : Bool :=
  decide (DescPtr.of t = s.desc)

/-- The struct `type_descriptor<R, Args...>` (storage.h:214-225). -/
structure type_descriptor (σ α ρ : Type) where
  copy : Nat → Nat → World σ → Outcome σ Unit
  move : Nat → Nat → World σ → Outcome σ Unit
  invoke : Nat → α → World σ → Outcome σ ρ
  destroy : Nat → World σ → Outcome σ Unit

/-- The table returned by `empty_type_descriptor<R, Args...>()` (storage.h:89-108). -/
def empty_type_descriptor {σ α ρ : Type} : type_descriptor σ α ρ where
  copy := fun src dest w =>
    match w.load src, w.load dest with
    | some s, some d => .ret (w.store dest { d with desc := s.desc }) ()
    | _, _ => .fault
  move := fun src dest w =>
    match w.load src, w.load dest with
    | some s, some d => .ret (w.store dest { d with desc := s.desc }) ()
    | _, _ => .fault
  invoke := fun _ _ w => .raise w .bad_function_call
  destroy := fun _ w => .ret w ()

/-- The table of the inline specialisation,
`function_traits<T, enable_if_t<fits_small_storage<T>>>::get_type_descriptor`
(storage.h:244-271). A throw out of the `noexcept` move is `std::terminate`. -/
def inline_type_descriptor {σ α ρ : Type} (E : Env σ α ρ) (t : TypeId) :
    type_descriptor σ α ρ where
  copy := fun src dest w =>
    match w.load src, w.load dest with
    | some s, some _ =>
      match s.get_static with
      | some v =>
        match (E.types t).copy_ctor v with
        | .ok c => .ret (w.store dest ⟨.obj c, s.desc⟩) ()
        | .error e => .raise w e
      | none => .fault
    | _, _ => .fault
  move := fun src dest w =>
    match w.load src, w.load dest with
    | some s, some _ =>
      match s.get_static with
      | some v =>
        match (E.types t).move_ctor v with
        | .ok (c, r) => .ret ((w.store src { s with buf := .obj r }).store dest ⟨.obj c, s.desc⟩) ()
        | .error _ => .fault
      | none => .fault
    | _, _ => .fault
  invoke := fun src args w =>
    match w.load src with
    | some s =>
      match s.get_static with
      | some v =>
        match (E.types t).call v args with
        | (v1, .ok r) => .ret (w.store src { s with buf := .obj v1 }) r
        | (v1, .error e) => .raise (w.store src { s with buf := .obj v1 }) e
      | none => .fault
    | none => .fault
  destroy := fun src w =>
    match w.load src with
    | some s =>
      match s.get_static with
      | some _ => .ret w ()
      | none => .fault
    | none => .fault

/-- The table of the heap-backed specialisation,
`function_traits<T, enable_if_t<!fits_small_storage<T>>>::get_type_descriptor`
(storage.h:291-319). -/
def heap_type_descriptor {σ α ρ : Type} (E : Env σ α ρ) (t : TypeId) :
    type_descriptor σ α ρ where
  copy := fun src dest w =>
    match w.load src, w.load dest with
    | some s, some _ =>
      match s.get_dynamic with
      | some p =>
        match w.heap_read p with
        | some v =>
          match w.heap_new ((E.types t).copy_ctor v) with
          | .ok (a, w1) => .ret (w1.store dest ⟨.ptr a, s.desc⟩) ()
          | .error e => .raise w e
        | none => .fault
      | none => .fault
    | _, _ => .fault
  move := fun src dest w =>
    match w.load src, w.load dest with
    | some s, some _ =>
      match s.get_dynamic with
      | some p => .ret ((w.store dest ⟨.ptr p, s.desc⟩).store src (s.set_dynamic 0)) ()
      | none => .fault
    | _, _ => .fault
  invoke := fun src args w =>
    match w.load src with
    | some s =>
      match s.get_dynamic with
      | some p =>
        match w.heap_read p with
        | some v =>
          match (E.types t).call v args with
          | (v1, .ok r) => .ret (w.heap_write p v1) r
          | (v1, .error e) => .raise (w.heap_write p v1) e
        | none => .fault
      | none => .fault
    | none => .fault
  destroy := fun src w =>
    match w.load src with
    | some s =>
      match s.get_dynamic with
      | some p =>
        match w.heap_delete p with
        | some w1 => .ret w1 ()
        | none => .fault
      | none => .fault
    | none => .fault

/-- The table `function_traits<T>::get_type_descriptor<R, Args...>()`: the
specialisation is selected by `fits_small_storage<T>` (storage.h:227-228, 274-275). -/
def get_type_descriptor {σ α ρ : Type} (E : Env σ α ρ) (t : TypeId) :
    type_descriptor σ α ρ :=
  if fits_small_storage E t then inline_type_descriptor E t else heap_type_descriptor E t

/-- Dereference of a dispatch-table pointer. -/
def DescPtr.deref {σ α ρ : Type} (E : Env σ α ρ) : DescPtr → type_descriptor σ α ρ
  | .empty => empty_type_descriptor
  | .of t => get_type_descriptor E t

/-- The default constructor `storage()` (storage.h:110-111): a new object with
a value-initialised buffer and the empty table; returns its address. -/
def storage.ctor_default {σ : Type} (w : World σ) : Outcome σ Nat :=
  .ret (w.push ⟨.ptr 0, .empty⟩) w.objs.length

/-- The destructor `~storage()` (storage.h:139-142); afterwards the object is gone. -/
def storage.dtor {σ α ρ : Type} (E : Env σ α ρ) (this : Nat) (w : World σ) : Outcome σ Unit :=
  match w.load this with
  | some s =>
    match (s.desc.deref E).destroy this w with
    | .ret w1 _ => .ret (w1.kill this) ()
    | _ => .fault
  | none => .fault

/-- The copy constructor `storage(storage const&)` (storage.h:113-116). It
delegates to `storage()`, so when the body throws the destructor of the new
object runs before the exception leaves. -/
def storage.ctor_copy {σ α ρ : Type} (E : Env σ α ρ) (other : Nat) (w : World σ) :
    Outcome σ Nat :=
  match w.load other with
  | some o =>
    match (o.desc.deref E).copy other w.objs.length (w.push ⟨.ptr 0, .empty⟩) with
    | .ret w1 _ => .ret w1 w.objs.length
    | .raise w1 e =>
      match storage.dtor E w.objs.length w1 with
      | .ret w2 _ => .raise w2 e
      | _ => .fault
    | .fault => .fault
  | none => .fault

/-- The move constructor `storage(storage&&) noexcept` (storage.h:118-121). -/
def storage.ctor_move {σ α ρ : Type} (E : Env σ α ρ) (other : Nat) (w : World σ) :
    Outcome σ Nat :=
  match w.load other with
  | some o =>
    match (o.desc.deref E).move other w.objs.length (w.push ⟨.ptr 0, .empty⟩) with
    | .ret w1 _ => .ret w1 w.objs.length
    | _ => .fault
  | none => .fault

/-- Member `storage::swap` (storage.h:207-212). -/
def storage.swap {σ : Type} (this rhs : Nat) (w : World σ) : Outcome σ Unit :=
  match w.load this, w.load rhs with
  | some a, some b => .ret ((w.store this b).store rhs a) ()
  | _, _ => .fault

/-- Copy assignment `operator=(storage const&)` (storage.h:123-129): the
temporary `storage(other)` is swapped with `*this` and then destroyed. -/
def storage.assign_copy {σ α ρ : Type} (E : Env σ α ρ) (this other : Nat) (w : World σ) :
    Outcome σ Unit :=
  if this ≠ other then
    match storage.ctor_copy E other w with
    | .ret w1 tmp =>
      match storage.swap tmp this w1 with
      | .ret w2 _ => storage.dtor E tmp w2
      | _ => .fault
    | .raise w1 e => .raise w1 e
    | .fault => .fault
  else .ret w ()

/-- Move assignment `operator=(storage&&) noexcept` (storage.h:131-137). -/
def storage.assign_move {σ α ρ : Type} (E : Env σ α ρ) (this other : Nat) (w : World σ) :
    Outcome σ Unit :=
  if this ≠ other then
    match storage.ctor_move E other w with
    | .ret w1 tmp =>
      match storage.swap tmp this w1 with
      | .ret w2 _ => storage.dtor E tmp w2
      | _ => .fault
    | _ => .fault
  else .ret w ()

/-- The two `function_traits<T>::initialize_storage` (storage.h:229-232,
276-279): the buffer contents for a callable `obj`. The inline one runs the
`noexcept` `set_static`; the heap-backed one evaluates `new T(std::move(obj))`. -/
def initialize_storage {σ α ρ : Type} (E : Env σ α ρ) (t : TypeId) (obj : σ) (w : World σ) :
    Outcome σ (Buf σ) :=
  if fits_small_storage E t then
    match (E.types t).move_ctor obj with
    | .ok (c, _) => .ret w (.obj c)
    | .error _ => .fault
  else
    match w.heap_new (((E.types t).move_ctor obj).map Prod.fst) with
    | .ok (a, w1) => .ret w1 (.ptr a)
    | .error e => .raise w e

/-- The converting constructor `storage(T&& val)` (storage.h:144-149);
returns the address of the new object. -/
def storage.ctor_from {σ α ρ : Type} (E : Env σ α ρ) (t : TypeId) (val : σ) (w : World σ) :
    Outcome σ Nat :=
  match initialize_storage E t val w with
  | .ret w1 b => .ret (w1.push ⟨b, .of t⟩) w.objs.length
  | .raise w1 e => .raise w1 e
  | .fault => .fault

/-- Member `storage::invoke` (storage.h:151-158). -/
def storage.invoke {σ α ρ : Type} (E : Env σ α ρ) (this : Nat) (args : α) (w : World σ) :
    Outcome σ ρ :=
  match w.load this with
  | some s => (s.desc.deref E).invoke this args w
  | none => .fault

/-- A `T*` as returned by `target`: null, the address of the buffer of the
storage at `i`, or a block of the free store. -/
inductive Ptr where
  | null
  | buf (i : Nat)
  | heap (a : Nat)
  deriving DecidableEq, Repr

/-- The pointer stored in a buffer, as a `T*`. -/
def Ptr.of_addr (p : Nat) : Ptr := if p = 0 then .null else .heap p

/-- The two `function_traits<T>::get_target` (storage.h:234-242, 281-289);
`none` when the buffer does not hold a pointer and is read as one. -/
def get_target {σ α ρ : Type} (E : Env σ α ρ) (t : TypeId) (src : Nat) (s : storage σ) :
    Option Ptr :=
  if fits_small_storage E t then some (.buf src) else s.get_dynamic.map Ptr.of_addr

/-- The conversion `function::operator bool` (function.h:47-50). -/
def function.operator_bool {σ : Type} (stg : storage σ) : Bool :=
  decide (stg.desc ≠ DescPtr.empty)

/-- The call operator `function::operator()` (function.h:52-60). -/
def function.call {σ α ρ : Type} (E : Env σ α ρ) (this : Nat) (args : α) (w : World σ) :
    Outcome σ ρ :=
  storage.invoke E this args w

/-- Member `function::target<T>` (function.h:62-80) of the container at
address `this`; `none` when there is no such container. -/
def function.target {σ α ρ : Type} (E : Env σ α ρ) (t : TypeId) (this : Nat) (w : World σ) :
    Option Ptr :=
  match w.load this with
  | some stg =>
    if function.operator_bool stg && stg.check_type t then get_target E t this stg
    else some .null
  | none => none

/-- The callable a storage currently holds: the object in the buffer, or the
object in the block its pointer designates; `none` when there is none. -/
def World.payload {σ α ρ : Type} (E : Env σ α ρ) (w : World σ) (s : storage σ) : Option σ :=
  match s.desc with
  | .empty => none
  | .of t =>
    if fits_small_storage E t then s.get_static
    else
      match s.get_dynamic with
      | some p => w.heap_read p
      | none => none

/-- The operations a client can apply to the containers of a program. -/
inductive Op (σ α : Type) where
  | ctor_default
  | ctor_from (t : TypeId) (val : σ)
  | ctor_copy (other : Nat)
  | ctor_move (other : Nat)
  | assign_copy (this other : Nat)
  | assign_move (this other : Nat)
  | call (this : Nat) (args : α)
  | dtor (this : Nat)
  | swap (this rhs : Nat)

/-- The state after an operation; a thrown exception is caught by the client
and the program goes on; `none` when the operation has undefined behaviour. -/
def Op.run {σ α ρ : Type} (E : Env σ α ρ) (op : Op σ α) (w : World σ) : Option (World σ) :=
  match op with
  | .ctor_default => (storage.ctor_default w).world
  | .ctor_from t val => (storage.ctor_from E t val w).world
  | .ctor_copy other => (storage.ctor_copy E other w).world
  | .ctor_move other => (storage.ctor_move E other w).world
  | .assign_copy this other => (storage.assign_copy E this other w).world
  | .assign_move this other => (storage.assign_move E this other w).world
  | .call this args => (function.call E this args w).world
  | .dtor this => (storage.dtor E this w).world
  | .swap this rhs => (storage.swap this rhs w).world

/-- The states a program reaches from the state without objects. -/
inductive Reachable {σ α ρ : Type} (E : Env σ α ρ) : World σ → Prop where
  | init (cap : Nat) : Reachable E (World.init σ cap)
  | step {w w1 : World σ} (op : Op σ α) : Reachable E w → op.run E w = some w1 → Reachable E w1

/-- The block a storage owns: the non-null pointer in the buffer of a storage
whose table is a heap-backed one. -/
def storage.owned {σ α ρ : Type} (E : Env σ α ρ) (s : storage σ) : Option Nat :=
  match s.desc with
  | .empty => none
  | .of t =>
    if fits_small_storage E t then none
    else
      match s.buf with
      | .ptr (a + 1) => some (a + 1)
      | _ => none

/-- The buffer is of the kind the active table expects: the value-initialised
buffer for the empty table, an object for an inline table, a pointer for a
heap-backed table. -/
def storage.wf {σ α ρ : Type} (E : Env σ α ρ) (s : storage σ) : Prop :=
  match s.desc with
  | .empty => s.buf = .ptr 0
  | .of t =>
    if fits_small_storage E t then s.get_static.isSome = true
    else s.get_dynamic.isSome = true

/-- The block owned by the storage at address `i`, if there is one. -/
def World.own {σ α ρ : Type} (E : Env σ α ρ) (w : World σ) (i : Nat) : Option Nat :=
  match w.load i with
  | some s => s.owned E
  | none => none

/-- Whether the block at `a` is live. -/
def World.is_live {σ : Type} (w : World σ) (a : Nat) : Bool := (w.heap_read a).isSome

/-- The invariant of the reachable states: buffers agree with tables, every
owned block is live, no block has two owners, and every live block has one. -/
structure Inv {σ α ρ : Type} (E : Env σ α ρ) (w : World σ) : Prop where
  view : ∀ i s, w.load i = some s → s.wf E
  live : ∀ i a, w.own E i = some a → w.is_live a = true
  excl : ∀ i j a, w.own E i = some a → w.own E j = some a → i = j
  noleak : ∀ a, w.is_live a = true → ∃ i, w.own E i = some a

/-- A closure capturing one `int` and adding it to its argument (4 bytes, inline). -/
def adder : CType (List Int) Int Int where
  size := 4
  align := 4
  nothrow_move := true
  call := fun k x => (k, .ok (k.sum + x))
  copy_ctor := fun k => .ok k
  move_ctor := fun k => .ok (k, [])

/-- A closure capturing a 64-byte buffer and summing it with its argument (heap-backed). -/
def big_adder : CType (List Int) Int Int where
  size := 64
  align := 1
  nothrow_move := true
  call := fun k x => (k, .ok (k.sum + x))
  copy_ctor := fun k => .ok k
  move_ctor := fun k => .ok (k, [])

/-- A callable that throws `bad_function_call` itself (1 byte, inline), as a
closure calling an empty container does. -/
def thrower : CType (List Int) Int Int where
  size := 1
  align := 1
  nothrow_move := true
  call := fun k _ => (k, .error .bad_function_call)
  copy_ctor := fun k => .ok k
  move_ctor := fun k => .ok (k, [])

/-- A 64-byte callable whose copy constructor throws (heap-backed). -/
def no_copy : CType (List Int) Int Int where
  size := 64
  align := 8
  nothrow_move := false
  call := fun k x => (k, .ok (k.sum + x))
  copy_ctor := fun _ => .error (.other 7)
  move_ctor := fun k => .ok (k, [])

/-- The types of the example programs on a platform with 8-byte pointers. -/
def demo : Env (List Int) Int Int where
  ptr_size := 8
  ptr_align := 8
  types := fun t =>
    match t with
    | 0 => adder
    | 1 => big_adder
    | 2 => thrower
    | _ => no_copy

/-- The state after constructing a container from the 64-byte closure holding
`[1, 2, 3]` and then a default container, with an allocator of 4 blocks. -/
def demo_two : World (List Int) :=
  ⟨[some ⟨.ptr 1, .of 1⟩, some ⟨.ptr 0, .empty⟩], [some [1, 2, 3]], 4⟩

/-- The state after constructing container `0` from the 64-byte closure holding
`[1, 2, 3]` and move-constructing container `1` from it. -/
def demo_moved : World (List Int) :=
  ⟨[some ⟨.ptr 0, .of 1⟩, some ⟨.ptr 1, .of 1⟩], [some [1, 2, 3]], 4⟩

/-- The state after constructing container `0` from the closure adding 5 and
then the default container `1`. -/
def demo_inline : World (List Int) :=
  ⟨[some ⟨.obj [5], .of 0⟩, some ⟨.ptr 0, .empty⟩], [], 4⟩

/-- What a client does with a container it holds: it calls it, or it assigns a
new value to the callable through the pointer `target<T>()` gave it. -/
inductive Touch (σ α : Type) where
  | call (args : α)
  | write (v : σ)

/-- The client statement `*f.target<T>() = v` on the container at `this`;
`none` (undefined behaviour) when the pointer is null or dangling. -/
def function.write_target {σ α ρ : Type} (E : Env σ α ρ) (t : TypeId) (this : Nat) (v : σ)
    (w : World σ) : Option (World σ) :=
  match function.target E t this w with
  | some (.buf j) =>
    match w.load j with
    | some s => some (w.store j (s.set_static v))
    | none => none
  | some (.heap a) =>
    match w.heap_read a with
    | some _ => some (w.heap_write a v)
    | none => none
  | _ => none

/-- The state after one use of the container at `this` holding type `t`. -/
def Touch.run {σ α ρ : Type} (E : Env σ α ρ) (t : TypeId) (this : Nat) :
    Touch σ α → World σ → Option (World σ)
  | .call args, w => (function.call E this args w).world
  | .write v, w => function.write_target E t this v w

/-- The state after a sequence of uses of the container at `this`. -/
def touches {σ α ρ : Type} (E : Env σ α ρ) (t : TypeId) (this : Nat) :
    List (Touch σ α) → World σ → Option (World σ)
  | [], w => some w
  | x :: xs, w =>
    match x.run E t this w with
    | some w1 => touches E t this xs w1
    | none => none

/-- The state after constructing container `0` from the 64-byte closure
holding `[1, 2, 3]`. -/
def demo_big : World (List Int) :=
  ⟨[some ⟨.ptr 1, .of 1⟩], [some [1, 2, 3]], 4⟩

/-- The state after constructing container `0` from the 64-byte callable whose
copy constructor throws and then the inline container `1` adding 5. -/
def demo_no_copy : World (List Int) :=
  ⟨[some ⟨.ptr 1, .of 3⟩, some ⟨.obj [5], .of 0⟩], [some [9]], 4⟩

/-- The state after constructing container `0` from the callable that throws
`bad_function_call` itself. -/
def demo_thrower : World (List Int) :=
  ⟨[some ⟨.obj [], .of 2⟩], [], 4⟩

/-- Whether the active table of a storage is a heap-backed one. -/
def storage.is_heap {σ α ρ : Type} (E : Env σ α ρ) (s : storage σ) : Bool :=
  match s.desc with
  | .empty => false
  | .of t => !fits_small_storage E t

/-- The end of a scope: the destructor runs on every live storage below
address `n`, the last constructed first; `none` when one of them has
undefined behaviour. -/
def storage.dtor_all {σ α ρ : Type} (E : Env σ α ρ) : Nat → World σ → Option (World σ)
  | 0, w => some w
  | n + 1, w =>
    match w.load n with
    | some _ =>
      match storage.dtor E n w with
      | .ret w1 _ => storage.dtor_all E n w1
      | _ => none
    | none => storage.dtor_all E n w

/-- The state after move-constructing container `1` from container `0` of
`demo_thrower`. -/
def demo_thrower_moved : World (List Int) :=
  ⟨[some ⟨.obj [], .of 2⟩, some ⟨.obj [], .of 2⟩], [], 4⟩

section Basics

variable {σ α ρ : Type}

theorem load_lt {w : World σ} {i : Nat} {s : storage σ} (h : w.load i = some s) :
    i < w.objs.length := by
  unfold World.load at h
  by_contra hc
  rw [List.getD_eq_default _ _ (by omega)] at h
  cases h

theorem load_store {w : World σ} {i : Nat} (s : storage σ) (h : i < w.objs.length) (j : Nat) :
    (w.store i s).load j = if j = i then some s else w.load j := by
  unfold World.load World.store
  simp only [List.getD_eq_getElem?_getD, List.getElem?_set]
  by_cases hj : j = i
  · subst hj; simp [h]
  · simp [hj, Ne.symm hj]

theorem load_kill (w : World σ) (i j : Nat) :
    (w.kill i).load j = if j = i then none else w.load j := by
  unfold World.load World.kill
  simp only [List.getD_eq_getElem?_getD, List.getElem?_set]
  by_cases hj : j = i
  · subst hj; by_cases h : j < w.objs.length <;> simp [h]
  · simp [hj, Ne.symm hj]

theorem load_push (w : World σ) (s : storage σ) (j : Nat) :
    (w.push s).load j = if j = w.objs.length then some s else w.load j := by
  unfold World.load World.push
  simp only [List.getD_eq_getElem?_getD]
  by_cases hj : j = w.objs.length
  · subst hj; simp
  · rcases Nat.lt_or_gt_of_ne hj with h | h
    · simp [hj, List.getElem?_append_left h]
    · simp [hj, List.getElem?_eq_none (show (w.objs ++ [some s]).length ≤ j by simp; omega),
        List.getElem?_eq_none (show w.objs.length ≤ j by omega)]

theorem heap_read_store (w : World σ) (i : Nat) (s : storage σ) (a : Nat) :
    (w.store i s).heap_read a = w.heap_read a := by
  cases a <;> rfl

theorem heap_read_push (w : World σ) (s : storage σ) (a : Nat) :
    (w.push s).heap_read a = w.heap_read a := by
  cases a <;> rfl

theorem heap_read_kill (w : World σ) (i : Nat) (a : Nat) :
    (w.kill i).heap_read a = w.heap_read a := by
  cases a <;> rfl

theorem heap_read_lt {w : World σ} {a : Nat} {v : σ} (h : w.heap_read a = some v) :
    0 < a ∧ a ≤ w.heap.length := by
  cases a with
  | zero => cases h
  | succ n =>
    refine ⟨Nat.succ_pos n, ?_⟩
    by_contra hc
    simp only [World.heap_read] at h
    rw [List.getD_eq_default _ _ (by omega)] at h
    cases h

theorem heap_read_write {w : World σ} {p : Nat} {v0 : σ} (v : σ) (h : w.heap_read p = some v0)
    (a : Nat) : (w.heap_write p v).heap_read a = if a = p then some v else w.heap_read a := by
  have hb := heap_read_lt h
  cases p with
  | zero => cases h
  | succ n =>
    cases a with
    | zero => simp [World.heap_read]
    | succ m =>
      simp only [World.heap_read, World.heap_write, List.getD_eq_getElem?_getD, List.getElem?_set]
      by_cases hm : m = n
      · subst hm
        have : m < w.heap.length := by omega
        simp [this]
      · simp [hm, Ne.symm hm]

theorem heap_read_delete {w w1 : World σ} {p : Nat} (h : w.heap_delete p = some w1) (a : Nat) :
    w1.heap_read a = if a = p then none else w.heap_read a := by
  cases p with
  | zero =>
    simp only [World.heap_delete, Option.some.injEq] at h
    subst h
    cases a <;> simp [World.heap_read]
  | succ n =>
    simp only [World.heap_delete] at h
    cases hn : w.heap.getD n none with
    | none => rw [hn] at h; cases h
    | some v =>
      rw [hn] at h
      simp only [Option.some.injEq] at h
      subst h
      cases a with
      | zero => simp [World.heap_read]
      | succ m =>
        simp only [World.heap_read, List.getD_eq_getElem?_getD, List.getElem?_set]
        by_cases hm : m = n
        · subst hm
          by_cases hl : m < w.heap.length <;> simp [hl]
        · simp [hm, Ne.symm hm]

theorem heap_delete_objs {w w1 : World σ} {p : Nat} (h : w.heap_delete p = some w1) :
    w1.objs = w.objs ∧ w1.cap = w.cap := by
  cases p with
  | zero =>
    simp only [World.heap_delete, Option.some.injEq] at h
    subst h
    exact ⟨rfl, rfl⟩
  | succ n =>
    simp only [World.heap_delete] at h
    cases hn : w.heap.getD n none with
    | none => rw [hn] at h; cases h
    | some v =>
      rw [hn] at h
      simp only [Option.some.injEq] at h
      subst h
      exact ⟨rfl, rfl⟩

theorem heap_delete_live {w : World σ} {p : Nat} {v : σ} (h : w.heap_read p = some v) :
    ∃ w1, w.heap_delete p = some w1 := by
  cases p with
  | zero => exact ⟨w, rfl⟩
  | succ n =>
    simp only [World.heap_read] at h
    simp only [World.heap_delete, h]
    exact ⟨_, rfl⟩

theorem heap_new_ok {w w1 : World σ} {c : Except Exn σ} {a : Nat}
    (h : w.heap_new c = .ok (a, w1)) :
    ∃ v, c = .ok v ∧ a = w.heap.length + 1 ∧ w1 = { w with heap := w.heap ++ [some v] } := by
  unfold World.heap_new at h
  split at h
  · cases c with
    | ok v =>
      simp only [Except.ok.injEq, Prod.mk.injEq] at h
      exact ⟨v, rfl, h.1.symm, h.2.symm⟩
    | error e => cases h
  · cases h

theorem heap_read_append (w : World σ) (v : σ) (a : Nat) :
    ({ w with heap := w.heap ++ [some v] } : World σ).heap_read a
      = if a = w.heap.length + 1 then some v else w.heap_read a := by
  cases a with
  | zero => simp [World.heap_read]
  | succ m =>
    simp only [World.heap_read, List.getD_eq_getElem?_getD]
    by_cases hm : m = w.heap.length
    · subst hm; simp
    · rcases Nat.lt_or_gt_of_ne hm with h | h
      · simp [hm, List.getElem?_append_left h]
      · simp [hm, List.getElem?_eq_none (show (w.heap ++ [some v]).length ≤ m by simp; omega),
          List.getElem?_eq_none (show w.heap.length ≤ m by omega)]

theorem heap_read_fresh (w : World σ) : w.heap_read (w.heap.length + 1) = none := by
  simp [World.heap_read]

end Basics

section Invariant

variable {σ α ρ : Type} {E : Env σ α ρ}

theorem Inv.init (cap : Nat) : Inv E (World.init σ cap) := by
  have hl : ∀ i, (World.init σ cap).load i = none := by
    intro i; simp [World.load, World.init]
  have ho : ∀ i, (World.init σ cap).own E i = none := by
    intro i; simp [World.own, hl]
  have hh : ∀ a, (World.init σ cap).is_live a = false := by
    intro a; cases a <;> simp [World.is_live, World.heap_read, World.init]
  refine ⟨?_, ?_, ?_, ?_⟩
  · intro i s h; rw [hl] at h; cases h
  · intro i a h; rw [ho] at h; cases h
  · intro i j a h; rw [ho] at h; cases h
  · intro a h; rw [hh] at h; cases h

/-- Ownership and liveness unchanged. -/
theorem Inv.of_same {w w1 : World σ} (h : Inv E w)
    (hown : ∀ i, w1.own E i = w.own E i) (hlive : ∀ a, w1.is_live a = w.is_live a)
    (hview : ∀ i s, w1.load i = some s → s.wf E) : Inv E w1 := by
  refine ⟨hview, ?_, ?_, ?_⟩
  · intro i a hi
    rw [hlive]; rw [hown] at hi; exact h.live i a hi
  · intro i j a hi hj
    rw [hown] at hi hj; exact h.excl i j a hi hj
  · intro a ha
    rw [hlive] at ha
    obtain ⟨i, hi⟩ := h.noleak a ha
    exact ⟨i, by rw [hown]; exact hi⟩

/-- A fresh block `p` gets the owner `n`, which owned nothing. -/
theorem Inv.of_alloc {w w1 : World σ} (h : Inv E w) (n p : Nat)
    (hn : w.own E n = none) (hp : w.is_live p = false)
    (hown : ∀ i, w1.own E i = if i = n then some p else w.own E i)
    (hlive : ∀ a, w1.is_live a = if a = p then true else w.is_live a)
    (hview : ∀ i s, w1.load i = some s → s.wf E) : Inv E w1 := by
  refine ⟨hview, ?_, ?_, ?_⟩
  · intro i a hi
    rw [hlive]; rw [hown] at hi
    by_cases ha : a = p
    · simp [ha]
    · simp only [ha, if_false]
      by_cases hin : i = n
      · simp only [hin, if_true, Option.some.injEq] at hi
        exact absurd hi.symm ha
      · simp only [hin, if_false] at hi
        exact h.live i a hi
  · intro i j a hi hj
    rw [hown] at hi hj
    by_cases hin : i = n <;> by_cases hjn : j = n
    · rw [hin, hjn]
    · simp only [hin, if_true, Option.some.injEq] at hi
      simp only [hjn, if_false] at hj
      have := h.live j a hj
      rw [← hi, hp] at this; cases this
    · simp only [hjn, if_true, Option.some.injEq] at hj
      simp only [hin, if_false] at hi
      have := h.live i a hi
      rw [← hj, hp] at this; cases this
    · simp only [hin, if_false] at hi
      simp only [hjn, if_false] at hj
      exact h.excl i j a hi hj
  · intro a ha
    rw [hlive] at ha
    by_cases hap : a = p
    · exact ⟨n, by rw [hown]; simp [hap]⟩
    · simp only [hap, if_false] at ha
      obtain ⟨i, hi⟩ := h.noleak a ha
      have hin : i ≠ n := by
        intro hc; rw [hc, hn] at hi; cases hi
      exact ⟨i, by rw [hown]; simp [hin, hi]⟩

/-- The block of `src`, if any, goes to `n`, which owned nothing. -/
theorem Inv.of_transfer {w w1 : World σ} (h : Inv E w) (src n : Nat)
    (hn : w.own E n = none)
    (hown : ∀ i, w1.own E i = if i = n then w.own E src else if i = src then none else w.own E i)
    (hlive : ∀ a, w1.is_live a = w.is_live a)
    (hview : ∀ i s, w1.load i = some s → s.wf E) : Inv E w1 := by
  refine ⟨hview, ?_, ?_, ?_⟩
  · intro i a hi
    rw [hlive]; rw [hown] at hi
    by_cases hin : i = n
    · simp only [hin, if_true] at hi
      exact h.live src a hi
    · simp only [hin, if_false] at hi
      by_cases his : i = src
      · simp [his] at hi
      · simp only [his, if_false] at hi
        exact h.live i a hi
  · intro i j a hi hj
    rw [hown] at hi hj
    by_cases hin : i = n <;> by_cases hjn : j = n
    · rw [hin, hjn]
    · simp only [hin, if_true] at hi
      simp only [hjn, if_false] at hj
      by_cases hjs : j = src
      · simp [hjs] at hj
      · simp only [hjs, if_false] at hj
        exact absurd (h.excl j src a hj hi) hjs
    · simp only [hjn, if_true] at hj
      simp only [hin, if_false] at hi
      by_cases his : i = src
      · simp [his] at hi
      · simp only [his, if_false] at hi
        exact absurd (h.excl i src a hi hj) his
    · simp only [hin, if_false] at hi
      simp only [hjn, if_false] at hj
      by_cases his : i = src
      · simp [his] at hi
      · by_cases hjs : j = src
        · simp [hjs] at hj
        · simp only [his, if_false] at hi
          simp only [hjs, if_false] at hj
          exact h.excl i j a hi hj
  · intro a ha
    rw [hlive] at ha
    obtain ⟨i, hi⟩ := h.noleak a ha
    by_cases his : i = src
    · refine ⟨n, ?_⟩
      rw [hown]; simp only [if_true]; rw [← his]; exact hi
    · have hin : i ≠ n := by
        intro hc; rw [hc, hn] at hi; cases hi
      exact ⟨i, by rw [hown]; simp [hin, his, hi]⟩

/-- Two storages exchange what they own. -/
theorem Inv.of_swap {w w1 : World σ} (h : Inv E w) (a b : Nat)
    (hown : ∀ i, w1.own E i = if i = b then w.own E a else if i = a then w.own E b else w.own E i)
    (hlive : ∀ x, w1.is_live x = w.is_live x)
    (hview : ∀ i s, w1.load i = some s → s.wf E) : Inv E w1 := by
  have inv2 : ∀ i : Nat, (if (if i = b then a else if i = a then b else i) = b then a
      else if (if i = b then a else if i = a then b else i) = a then b
      else (if i = b then a else if i = a then b else i)) = i := by
    intro i
    by_cases hib : i = b
    · by_cases hab : a = b
      · simp [hib, hab]
      · simp [hib, hab]
    · by_cases hia : i = a
      · simp [hia]
      · simp [hib, hia]
  have hperm : ∀ i, w1.own E i = w.own E (if i = b then a else if i = a then b else i) := by
    intro i
    rw [hown]
    by_cases hib : i = b
    · simp [hib]
    · by_cases hia : i = a
      · subst hia; simp [hib]
      · simp [hib, hia]
  refine ⟨hview, ?_, ?_, ?_⟩
  · intro i x hi
    rw [hlive]
    rw [hperm] at hi
    exact h.live _ x hi
  · intro i j x hi hj
    rw [hperm] at hi hj
    have hkl := h.excl _ _ x hi hj
    have := congrArg (fun k => if k = b then a else if k = a then b else k) hkl
    simp only [inv2] at this
    exact this
  · intro x hx
    rw [hlive] at hx
    obtain ⟨i, hi⟩ := h.noleak x hx
    refine ⟨if i = b then a else if i = a then b else i, ?_⟩
    rw [hperm, inv2]
    exact hi

/-- The storage at `i` goes away together with the block it owned. -/
theorem Inv.of_free {w w1 : World σ} (h : Inv E w) (i : Nat)
    (hown : ∀ j, w1.own E j = if j = i then none else w.own E j)
    (hlive : ∀ a, w1.is_live a = if w.own E i = some a then false else w.is_live a)
    (hview : ∀ j s, w1.load j = some s → s.wf E) : Inv E w1 := by
  refine ⟨hview, ?_, ?_, ?_⟩
  · intro j a hj
    rw [hlive]; rw [hown] at hj
    by_cases hji : j = i
    · simp [hji] at hj
    · simp only [hji, if_false] at hj
      have hne : w.own E i ≠ some a := fun hc => hji (h.excl j i a hj hc)
      simp only [hne, if_false]
      exact h.live j a hj
  · intro j k a hj hk
    rw [hown] at hj hk
    by_cases hji : j = i
    · simp [hji] at hj
    · by_cases hki : k = i
      · simp [hki] at hk
      · simp only [hji, if_false] at hj
        simp only [hki, if_false] at hk
        exact h.excl j k a hj hk
  · intro a ha
    rw [hlive] at ha
    by_cases hia : w.own E i = some a
    · simp [hia] at ha
    · simp only [hia, if_false] at ha
      obtain ⟨j, hj⟩ := h.noleak a ha
      have hji : j ≠ i := by
        intro hc; rw [hc] at hj; exact hia hj
      exact ⟨j, by rw [hown]; simp [hji, hj]⟩

theorem own_store {w : World σ} {i : Nat} (s : storage σ) (h : i < w.objs.length) (j : Nat) :
    (w.store i s).own E j = if j = i then s.owned E else w.own E j := by
  unfold World.own
  rw [load_store s h]
  by_cases hj : j = i <;> simp [hj]

theorem own_push (w : World σ) (s : storage σ) (j : Nat) :
    (w.push s).own E j = if j = w.objs.length then s.owned E else w.own E j := by
  unfold World.own
  rw [load_push]
  by_cases hj : j = w.objs.length <;> simp [hj]

theorem own_kill (w : World σ) (i j : Nat) :
    (w.kill i).own E j = if j = i then none else w.own E j := by
  unfold World.own
  rw [load_kill]
  by_cases hj : j = i <;> simp [hj]

theorem own_of_load {w : World σ} {i : Nat} {s : storage σ} (h : w.load i = some s) :
    w.own E i = s.owned E := by
  simp [World.own, h]

theorem own_fresh (w : World σ) : w.own E w.objs.length = none := by
  have : w.load w.objs.length = none := by
    simp [World.load]
  simp [World.own, this]

theorem is_live_store (w : World σ) (i : Nat) (s : storage σ) (a : Nat) :
    (w.store i s).is_live a = w.is_live a := by
  simp [World.is_live, heap_read_store]

theorem is_live_push (w : World σ) (s : storage σ) (a : Nat) :
    (w.push s).is_live a = w.is_live a := by
  simp [World.is_live, heap_read_push]

theorem is_live_kill (w : World σ) (i : Nat) (a : Nat) :
    (w.kill i).is_live a = w.is_live a := by
  simp [World.is_live, heap_read_kill]

theorem wf_default : (⟨.ptr 0, .empty⟩ : storage σ).wf E := by
  simp [storage.wf]

theorem owned_default : (⟨.ptr 0, .empty⟩ : storage σ).owned E = none := by
  simp [storage.owned]

theorem owned_empty {s : storage σ} (h : s.desc = .empty) : s.owned E = none := by
  simp [storage.owned, h]

theorem owned_inline {s : storage σ} {t : TypeId} (h : s.desc = .of t)
    (hf : fits_small_storage E t = true) : s.owned E = none := by
  simp [storage.owned, h, hf]

theorem owned_heap {s : storage σ} {t : TypeId} {p : Nat} (h : s.desc = .of t)
    (hf : fits_small_storage E t = false) (hb : s.buf = .ptr p) :
    s.owned E = if p = 0 then none else some p := by
  cases p <;> simp [storage.owned, h, hf, hb]

/-- A new object that owns nothing keeps the invariant. -/
theorem Inv.push {w : World σ} (h : Inv E w) (s : storage σ) (hs : s.wf E)
    (ho : s.owned E = none) : Inv E (w.push s) := by
  refine h.of_same ?_ (is_live_push w s) ?_
  · intro i
    rw [own_push]
    by_cases hi : i = w.objs.length
    · simp [hi, ho, own_fresh]
    · simp [hi]
  · intro i x hx
    rw [load_push] at hx
    by_cases hi : i = w.objs.length
    · simp only [hi, if_true, Option.some.injEq] at hx
      rw [← hx]; exact hs
    · simp only [hi, if_false] at hx
      exact h.view i x hx

/-- Replacing an object by one that owns the same keeps the invariant. -/
theorem Inv.store {w : World σ} (h : Inv E w) {i : Nat} {s0 : storage σ} (s : storage σ)
    (hi : w.load i = some s0) (hs : s.wf E) (ho : s.owned E = s0.owned E) :
    Inv E (w.store i s) := by
  have hlt := load_lt hi
  refine h.of_same ?_ (is_live_store w i s) ?_
  · intro j
    rw [own_store s hlt]
    by_cases hj : j = i
    · simp [hj, ho, own_of_load hi]
    · simp [hj]
  · intro j x hx
    rw [load_store s hlt] at hx
    by_cases hj : j = i
    · simp only [hj, if_true, Option.some.injEq] at hx
      rw [← hx]; exact hs
    · simp only [hj, if_false] at hx
      exact h.view j x hx

theorem wf_inline {s : storage σ} {t : TypeId} (hw : s.wf E) (h : s.desc = .of t)
    (hf : fits_small_storage E t = true) : ∃ v, s.buf = .obj v := by
  simp only [storage.wf, h, hf, if_true, storage.get_static] at hw
  cases hb : s.buf with
  | obj v => exact ⟨v, rfl⟩
  | ptr p => rw [hb] at hw; cases hw

theorem wf_heap {s : storage σ} {t : TypeId} (hw : s.wf E) (h : s.desc = .of t)
    (hf : fits_small_storage E t = false) : ∃ p, s.buf = .ptr p := by
  simp only [storage.wf, h, hf, storage.get_dynamic] at hw
  cases hb : s.buf with
  | obj v => rw [hb] at hw; simp at hw
  | ptr p => exact ⟨p, rfl⟩

theorem deref_empty : DescPtr.deref E .empty = empty_type_descriptor := rfl

theorem deref_inline {t : TypeId} (hf : fits_small_storage E t = true) :
    DescPtr.deref E (.of t) = inline_type_descriptor E t := by
  simp [DescPtr.deref, get_type_descriptor, hf]

theorem deref_heap {t : TypeId} (hf : fits_small_storage E t = false) :
    DescPtr.deref E (.of t) = heap_type_descriptor E t := by
  simp [DescPtr.deref, get_type_descriptor, hf]

/-- The destructor of a live storage of a state satisfying the invariant
returns; the object is gone and so is the block it owned. -/
theorem dtor_spec {w : World σ} (h : Inv E w) {i : Nat} {s : storage σ}
    (hi : w.load i = some s) :
    ∃ w1, storage.dtor E i w = .ret w1 () ∧ Inv E w1
      ∧ (∀ j, w1.load j = if j = i then none else w.load j)
      ∧ (∀ a, w1.heap_read a = if s.owned E = some a then none else w.heap_read a)
      ∧ w1.objs.length = w.objs.length ∧ w1.heap.length = w.heap.length ∧ w1.cap = w.cap := by
  have hwf := h.view i s hi
  have hfin : ∀ w0 : World σ, w0.objs = w.objs → w0.cap = w.cap →
      w0.heap.length = w.heap.length →
      (∀ a, w0.heap_read a = if s.owned E = some a then none else w.heap_read a) →
      Inv E (w0.kill i)
      ∧ (∀ j, (w0.kill i).load j = if j = i then none else w.load j)
      ∧ (∀ a, (w0.kill i).heap_read a = if s.owned E = some a then none else w.heap_read a)
      ∧ (w0.kill i).objs.length = w.objs.length ∧ (w0.kill i).heap.length = w.heap.length
      ∧ (w0.kill i).cap = w.cap := by
    intro w0 ho hc hl hr
    have hload : ∀ j, (w0.kill i).load j = if j = i then none else w.load j := by
      intro j
      rw [load_kill]
      simp [World.load, ho]
    refine ⟨?_, hload, ?_, ?_, hl, hc⟩
    · refine h.of_free i ?_ ?_ ?_
      · intro j
        unfold World.own
        rw [hload]
        by_cases hj : j = i <;> simp [hj]
      · intro a
        simp only [World.is_live, heap_read_kill, hr, own_of_load hi]
        by_cases ha : s.owned E = some a <;> simp [ha]
      · intro j x hx
        rw [hload] at hx
        by_cases hj : j = i
        · simp [hj] at hx
        · simp only [hj, if_false] at hx
          exact h.view j x hx
    · intro a; rw [heap_read_kill]; exact hr a
    · simp [World.kill, ho]
  unfold storage.dtor
  rw [hi]
  simp only []
  cases hd : s.desc with
  | empty =>
    rw [deref_empty]
    simp only [empty_type_descriptor]
    refine ⟨w.kill i, rfl, hfin w rfl rfl rfl ?_⟩
    intro a; simp [owned_empty hd]
  | of t =>
    cases hf : fits_small_storage E t with
    | true =>
      obtain ⟨v, hv⟩ := wf_inline hwf hd hf
      rw [deref_inline hf]
      simp only [inline_type_descriptor, hi, storage.get_static, hv]
      refine ⟨w.kill i, rfl, hfin w rfl rfl rfl ?_⟩
      intro a; simp [owned_inline hd hf]
    | false =>
      obtain ⟨p, hp⟩ := wf_heap hwf hd hf
      rw [deref_heap hf]
      simp only [heap_type_descriptor, hi, storage.get_dynamic, hp]
      have hown := owned_heap (E := E) hd hf hp
      have hdel : ∃ w0, w.heap_delete p = some w0 := by
        by_cases hp0 : p = 0
        · subst hp0; exact ⟨w, rfl⟩
        · have hl := h.live i p (by rw [own_of_load hi, hown]; simp [hp0])
          simp only [World.is_live, Option.isSome_iff_exists] at hl
          obtain ⟨v, hv⟩ := hl
          exact heap_delete_live hv
      obtain ⟨w0, hw0⟩ := hdel
      rw [hw0]
      have ho := heap_delete_objs hw0
      refine ⟨w0.kill i, rfl, hfin w0 ho.1 ho.2 ?_ ?_⟩
      · cases p with
        | zero =>
          simp only [World.heap_delete, Option.some.injEq] at hw0
          rw [← hw0]
        | succ n =>
          simp only [World.heap_delete] at hw0
          cases hn : w.heap.getD n none with
          | none => rw [hn] at hw0; cases hw0
          | some v =>
            rw [hn] at hw0
            simp only [Option.some.injEq] at hw0
            rw [← hw0]
            simp
      · intro a
        rw [heap_read_delete hw0, hown]
        by_cases hp0 : p = 0
        · subst hp0
          by_cases ha : a = 0
          · subst ha; simp [World.heap_read]
          · simp [ha]
        · by_cases ha : a = p
          · simp [ha, hp0]
          · have : ¬ p = a := fun hc => ha hc.symm
            simp [ha, hp0, this]

theorem push_store_last (w : World σ) (d x : storage σ) :
    (w.push d).store w.objs.length x = w.push x := by
  simp [World.push, World.store, List.set_append]

theorem push_store_comm (w : World σ) (d x y : storage σ) {i : Nat} (h : i < w.objs.length) :
    ((w.push d).store w.objs.length x).store i y = (w.store i y).push x := by
  simp [World.push, World.store, List.set_append, h]

theorem load_push_old {w : World σ} {i : Nat} {s : storage σ} (d : storage σ)
    (h : w.load i = some s) : (w.push d).load i = some s := by
  rw [load_push]
  have := load_lt h
  simp [Nat.ne_of_lt this, h]

theorem load_push_new (w : World σ) (d : storage σ) :
    (w.push d).load w.objs.length = some d := by
  rw [load_push]; simp

theorem push_kill_last (w : World σ) (d : storage σ) :
    (w.push d).kill w.objs.length = { w with objs := w.objs ++ [none] } := by
  simp [World.push, World.kill, List.set_append]

/-- The destructor of a storage with the empty table only ends its lifetime. -/
theorem dtor_empty {w : World σ} {i : Nat} {s : storage σ} (hi : w.load i = some s)
    (hd : s.desc = .empty) : storage.dtor E i w = .ret (w.kill i) () := by
  unfold storage.dtor
  rw [hi]
  simp only [hd, deref_empty, empty_type_descriptor]

/-- Copy construction from an empty storage. -/
theorem ctor_copy_empty {w : World σ} {other : Nat} {o : storage σ}
    (hi : w.load other = some o) (hd : o.desc = .empty) :
    storage.ctor_copy E other w = .ret (w.push ⟨.ptr 0, .empty⟩) w.objs.length := by
  unfold storage.ctor_copy
  rw [hi]
  simp only [hd, deref_empty, empty_type_descriptor, load_push_old _ hi, load_push_new,
    push_store_last]

/-- Copy construction from a storage holding an inline payload. -/
theorem ctor_copy_inline {w : World σ} {other : Nat} {o : storage σ} {t : TypeId} {v : σ}
    (hi : w.load other = some o) (hd : o.desc = .of t)
    (hf : fits_small_storage E t = true) (hb : o.buf = .obj v) :
    storage.ctor_copy E other w =
      match (E.types t).copy_ctor v with
      | .ok c => .ret (w.push ⟨.obj c, .of t⟩) w.objs.length
      | .error e => .raise ({ w with objs := w.objs ++ [none] }) e := by
  unfold storage.ctor_copy
  rw [hi]
  simp only [hd, deref_inline hf, inline_type_descriptor, load_push_old _ hi, load_push_new,
    storage.get_static, hb]
  cases (E.types t).copy_ctor v with
  | ok c => simp only [push_store_last]
  | error e =>
    simp only [dtor_empty (E := E) (load_push_new w ⟨.ptr 0, .empty⟩) rfl, push_kill_last]

/-- Copy construction from a storage holding a heap-backed payload. -/
theorem ctor_copy_heap {w : World σ} {other : Nat} {o : storage σ} {t : TypeId} {p : Nat}
    (hi : w.load other = some o) (hd : o.desc = .of t)
    (hf : fits_small_storage E t = false) (hb : o.buf = .ptr p) :
    storage.ctor_copy E other w =
      match w.heap_read p with
      | some v =>
        match w.heap_new ((E.types t).copy_ctor v) with
        | .ok (a, w1) => .ret (w1.push ⟨.ptr a, .of t⟩) w.objs.length
        | .error e => .raise ({ w with objs := w.objs ++ [none] }) e
      | none => .fault := by
  unfold storage.ctor_copy
  rw [hi]
  simp only [hd, deref_heap hf, heap_type_descriptor, load_push_old _ hi, load_push_new,
    storage.get_dynamic, hb, heap_read_push]
  cases w.heap_read p with
  | none => rfl
  | some v =>
    simp only [World.heap_new, World.push]
    by_cases hc : w.heap.length < w.cap
    · simp only [hc, if_true]
      cases (E.types t).copy_ctor v with
      | ok c => simp [World.store, List.set_append]
      | error e =>
        have := dtor_empty (E := E) (load_push_new w ⟨.ptr 0, .empty⟩) rfl
        simp only [World.push] at this
        simp only [this]
        simp [World.kill, List.set_append]
    · simp only [hc, if_false]
      have := dtor_empty (E := E) (load_push_new w ⟨.ptr 0, .empty⟩) rfl
      simp only [World.push] at this
      simp only [this]
      simp [World.kill, List.set_append]

/-- Move construction from an empty storage. -/
theorem ctor_move_empty {w : World σ} {other : Nat} {o : storage σ}
    (hi : w.load other = some o) (hd : o.desc = .empty) :
    storage.ctor_move E other w = .ret (w.push ⟨.ptr 0, .empty⟩) w.objs.length := by
  unfold storage.ctor_move
  rw [hi]
  simp only [hd, deref_empty, empty_type_descriptor, load_push_old _ hi, load_push_new,
    push_store_last]

/-- Move construction from a storage holding an inline payload. -/
theorem ctor_move_inline {w : World σ} {other : Nat} {o : storage σ} {t : TypeId} {v : σ}
    (hi : w.load other = some o) (hd : o.desc = .of t)
    (hf : fits_small_storage E t = true) (hb : o.buf = .obj v) :
    storage.ctor_move E other w =
      match (E.types t).move_ctor v with
      | .ok (c, r) => .ret ((w.store other ⟨.obj r, .of t⟩).push ⟨.obj c, .of t⟩) w.objs.length
      | .error _ => .fault := by
  unfold storage.ctor_move
  rw [hi]
  simp only [hd, deref_inline hf, inline_type_descriptor, load_push_old _ hi, load_push_new,
    storage.get_static, hb]
  have hlt := load_lt hi
  cases (E.types t).move_ctor v with
  | ok cr =>
    obtain ⟨c, r⟩ := cr
    simp [World.push, World.store, List.set_append, hlt]
  | error e => rfl

/-- Move construction from a storage with a heap-backed table. -/
theorem ctor_move_heap {w : World σ} {other : Nat} {o : storage σ} {t : TypeId} {p : Nat}
    (hi : w.load other = some o) (hd : o.desc = .of t)
    (hf : fits_small_storage E t = false) (hb : o.buf = .ptr p) :
    storage.ctor_move E other w =
      .ret ((w.store other ⟨.ptr 0, .of t⟩).push ⟨.ptr p, .of t⟩) w.objs.length := by
  unfold storage.ctor_move
  rw [hi]
  simp only [hd, deref_heap hf, heap_type_descriptor, load_push_old _ hi, load_push_new,
    storage.get_dynamic, hb, storage.set_dynamic]
  have hlt := load_lt hi
  simp [World.push, World.store, List.set_append, hlt]

theorem load_push_none (w : World σ) (j : Nat) :
    ({ w with objs := w.objs ++ [none] } : World σ).load j = w.load j := by
  have := load_kill (w.push ⟨.ptr 0, .empty⟩) w.objs.length j
  rw [push_kill_last, load_push] at this
  rw [this]
  by_cases hj : j = w.objs.length
  · subst hj; simp [World.load]
  · simp [hj]

/-- A dead slot at the end changes nothing. -/
theorem Inv.push_none {w : World σ} (h : Inv E w) :
    Inv E ({ w with objs := w.objs ++ [none] } : World σ) := by
  refine h.of_same ?_ ?_ ?_
  · intro i; simp only [World.own, load_push_none]
  · intro a; cases a <;> rfl
  · intro i x hx
    rw [load_push_none] at hx
    exact h.view i x hx

/-- A new heap-backed storage owning a fresh block keeps the invariant. -/
theorem Inv.alloc_push {w : World σ} (h : Inv E w) {t : TypeId} (c : σ)
    (hf : fits_small_storage E t = false) :
    Inv E (({ w with heap := w.heap ++ [some c] } : World σ).push
      ⟨.ptr (w.heap.length + 1), .of t⟩) := by
  have hload : ∀ j, (({ w with heap := w.heap ++ [some c] } : World σ).push
      ⟨.ptr (w.heap.length + 1), .of t⟩).load j
      = if j = w.objs.length then some ⟨.ptr (w.heap.length + 1), .of t⟩ else w.load j := by
    intro j
    rw [load_push]
    rfl
  refine h.of_alloc w.objs.length (w.heap.length + 1) (own_fresh w) ?_ ?_ ?_ ?_
  · simp [World.is_live, heap_read_fresh]
  · intro i
    unfold World.own
    rw [hload]
    by_cases hi : i = w.objs.length
    · simp [hi, storage.owned, hf]
    · simp [hi]
  · intro a
    simp only [World.is_live, heap_read_push, heap_read_append]
    by_cases ha : a = w.heap.length + 1 <;> simp [ha]
  · intro i x hx
    rw [hload] at hx
    by_cases hi : i = w.objs.length
    · simp only [hi, if_true, Option.some.injEq] at hx
      rw [← hx]
      simp [storage.wf, hf, storage.get_dynamic]
    · simp only [hi, if_false] at hx
      exact h.view i x hx

/-- Copy construction keeps the invariant, whether it returns or throws. -/
theorem Inv.ctor_copy {w w1 : World σ} (h : Inv E w) {other : Nat}
    (hr : (storage.ctor_copy E other w).world = some w1) : Inv E w1 := by
  cases hi : w.load other with
  | none => simp [storage.ctor_copy, hi, Outcome.world] at hr
  | some o =>
    have hwf := h.view other o hi
    cases hd : o.desc with
    | empty =>
      rw [ctor_copy_empty hi hd] at hr
      simp only [Outcome.world, Option.some.injEq] at hr
      rw [← hr]
      exact h.push _ wf_default owned_default
    | of t =>
      cases hf : fits_small_storage E t with
      | true =>
        obtain ⟨v, hv⟩ := wf_inline hwf hd hf
        rw [ctor_copy_inline hi hd hf hv] at hr
        cases hc : (E.types t).copy_ctor v with
        | ok c =>
          simp only [hc, Outcome.world, Option.some.injEq] at hr
          rw [← hr]
          exact h.push _ (by simp [storage.wf, hf, storage.get_static])
            (by simp [storage.owned, hf])
        | error e =>
          simp only [hc, Outcome.world, Option.some.injEq] at hr
          rw [← hr]
          exact h.push_none
      | false =>
        obtain ⟨p, hp⟩ := wf_heap hwf hd hf
        rw [ctor_copy_heap hi hd hf hp] at hr
        cases hv : w.heap_read p with
        | none => simp [hv, Outcome.world] at hr
        | some v =>
          simp only [hv] at hr
          cases hn : w.heap_new ((E.types t).copy_ctor v) with
          | ok aw =>
            obtain ⟨a, w2⟩ := aw
            simp only [hn, Outcome.world, Option.some.injEq] at hr
            obtain ⟨c, _, ha, hw2⟩ := heap_new_ok hn
            rw [← hr, ha, hw2]
            exact h.alloc_push c hf
          | error e =>
            simp only [hn, Outcome.world, Option.some.injEq] at hr
            rw [← hr]
            exact h.push_none

/-- Move construction keeps the invariant. -/
theorem Inv.ctor_move {w w1 : World σ} (h : Inv E w) {other : Nat}
    (hr : (storage.ctor_move E other w).world = some w1) : Inv E w1 := by
  cases hi : w.load other with
  | none => simp [storage.ctor_move, hi, Outcome.world] at hr
  | some o =>
    have hwf := h.view other o hi
    have hlt := load_lt hi
    cases hd : o.desc with
    | empty =>
      rw [ctor_move_empty hi hd] at hr
      simp only [Outcome.world, Option.some.injEq] at hr
      rw [← hr]
      exact h.push _ wf_default owned_default
    | of t =>
      cases hf : fits_small_storage E t with
      | true =>
        obtain ⟨v, hv⟩ := wf_inline hwf hd hf
        rw [ctor_move_inline hi hd hf hv] at hr
        cases hc : (E.types t).move_ctor v with
        | ok cr =>
          obtain ⟨c, r⟩ := cr
          simp only [hc, Outcome.world, Option.some.injEq] at hr
          rw [← hr]
          refine Inv.push (Inv.store h _ hi ?_ ?_) _ ?_ ?_
          · simp [storage.wf, hf, storage.get_static]
          · rw [owned_inline hd hf]; simp [storage.owned, hf]
          · simp [storage.wf, hf, storage.get_static]
          · simp [storage.owned, hf]
        | error e => simp [hc, Outcome.world] at hr
      | false =>
        obtain ⟨p, hp⟩ := wf_heap hwf hd hf
        rw [ctor_move_heap hi hd hf hp] at hr
        simp only [Outcome.world, Option.some.injEq] at hr
        rw [← hr]
        have hload : ∀ j, ((w.store other ⟨.ptr 0, .of t⟩).push ⟨.ptr p, .of t⟩).load j
            = if j = w.objs.length then some ⟨.ptr p, .of t⟩
              else if j = other then some ⟨.ptr 0, .of t⟩ else w.load j := by
          intro j
          rw [load_push, load_store _ hlt]
          simp [World.store]
        have hne : other ≠ w.objs.length := Nat.ne_of_lt hlt
        refine h.of_transfer other w.objs.length (own_fresh w) ?_ ?_ ?_
        · intro j
          unfold World.own
          rw [hload, hi]
          by_cases hj : j = w.objs.length
          · simp only [hj, if_true]
            rw [owned_heap (E := E) hd hf hp]
            cases p <;> simp [storage.owned, hf]
          · by_cases hjo : j = other
            · subst hjo; simp [hne, storage.owned, hf]
            · simp [hj, hjo]
        · intro a
          rw [is_live_push, is_live_store]
        · intro j x hx
          rw [hload] at hx
          by_cases hj : j = w.objs.length
          · simp only [hj, if_true, Option.some.injEq] at hx
            rw [← hx]; simp [storage.wf, hf, storage.get_dynamic]
          · by_cases hjo : j = other
            · subst hjo
              simp only [hne, if_false, if_true, Option.some.injEq] at hx
              rw [← hx]; simp [storage.wf, hf, storage.get_dynamic]
            · simp only [hj, hjo, if_false] at hx
              exact h.view j x hx

theorem swap_load {w : World σ} {a b : Nat} {sa sb : storage σ}
    (ha : w.load a = some sa) (hb : w.load b = some sb) :
    storage.swap a b w = .ret ((w.store a sb).store b sa) ()
      ∧ ∀ j, ((w.store a sb).store b sa).load j
          = if j = b then some sa else if j = a then some sb else w.load j := by
  refine ⟨by simp [storage.swap, ha, hb], ?_⟩
  intro j
  have hla := load_lt ha
  have hlb : b < (w.store a sb).objs.length := by
    simpa [World.store] using load_lt hb
  rw [load_store _ hlb, load_store _ hla]

/-- Member `swap` keeps the invariant. -/
theorem Inv.swap {w w1 : World σ} (h : Inv E w) {a b : Nat}
    (hr : (storage.swap a b w).world = some w1) : Inv E w1 := by
  cases ha : w.load a with
  | none => simp [storage.swap, ha, Outcome.world] at hr
  | some sa =>
    cases hb : w.load b with
    | none => simp [storage.swap, ha, hb, Outcome.world] at hr
    | some sb =>
      obtain ⟨he, hload⟩ := swap_load ha hb
      rw [he] at hr
      simp only [Outcome.world, Option.some.injEq] at hr
      rw [← hr]
      refine h.of_swap a b ?_ ?_ ?_
      · intro j
        unfold World.own
        rw [hload, ha, hb]
        by_cases hjb : j = b
        · simp [hjb]
        · by_cases hja : j = a
          · subst hja; simp [hjb]
          · simp [hjb, hja]
      · intro x
        rw [is_live_store, is_live_store]
      · intro j x hx
        rw [hload] at hx
        by_cases hjb : j = b
        · simp only [hjb, if_true, Option.some.injEq] at hx
          rw [← hx]; exact h.view a sa ha
        · by_cases hja : j = a
          · subst hja
            simp only [hjb, if_false, if_true, Option.some.injEq] at hx
            rw [← hx]; exact h.view b sb hb
          · simp only [hjb, hja, if_false] at hx
            exact h.view j x hx

/-- Invocation of a storage with the empty table. -/
theorem invoke_empty {w : World σ} {i : Nat} {s : storage σ} (args : α)
    (hi : w.load i = some s) (hd : s.desc = .empty) :
    storage.invoke E i args w = (.raise w .bad_function_call : Outcome σ ρ) := by
  unfold storage.invoke
  rw [hi]
  simp only [hd, deref_empty, empty_type_descriptor]

/-- Invocation of a storage holding an inline payload. -/
theorem invoke_inline {w : World σ} {i : Nat} {s : storage σ} {t : TypeId} {v : σ} (args : α)
    (hi : w.load i = some s) (hd : s.desc = .of t)
    (hf : fits_small_storage E t = true) (hb : s.buf = .obj v) :
    storage.invoke E i args w =
      match (E.types t).call v args with
      | (v1, .ok r) => .ret (w.store i ⟨.obj v1, .of t⟩) r
      | (v1, .error e) => .raise (w.store i ⟨.obj v1, .of t⟩) e := by
  unfold storage.invoke
  rw [hi]
  simp only [hd, deref_inline hf, inline_type_descriptor, hi, storage.get_static, hb]

/-- Invocation of a storage with a heap-backed table. -/
theorem invoke_heap {w : World σ} {i : Nat} {s : storage σ} {t : TypeId} {p : Nat} (args : α)
    (hi : w.load i = some s) (hd : s.desc = .of t)
    (hf : fits_small_storage E t = false) (hb : s.buf = .ptr p) :
    storage.invoke E i args w =
      match w.heap_read p with
      | some v =>
        match (E.types t).call v args with
        | (v1, .ok r) => .ret (w.heap_write p v1) r
        | (v1, .error e) => .raise (w.heap_write p v1) e
      | none => .fault := by
  unfold storage.invoke
  rw [hi]
  simp only [hd, deref_heap hf, heap_type_descriptor, hi, storage.get_dynamic, hb]

theorem load_heap_write (w : World σ) (p : Nat) (v : σ) (j : Nat) :
    (w.heap_write p v).load j = w.load j := by
  cases p <;> rfl

/-- Overwriting a live block keeps the invariant. -/
theorem Inv.heap_write {w : World σ} (h : Inv E w) {p : Nat} {v0 : σ} (v : σ)
    (hp : w.heap_read p = some v0) : Inv E (w.heap_write p v) := by
  refine h.of_same ?_ ?_ ?_
  · intro i; simp only [World.own, load_heap_write]
  · intro a
    simp only [World.is_live, heap_read_write v hp]
    by_cases ha : a = p
    · simp [ha, hp]
    · simp [ha]
  · intro i x hx
    rw [load_heap_write] at hx
    exact h.view i x hx

/-- Invocation keeps the invariant, whether it returns or throws. -/
theorem Inv.invoke {w w1 : World σ} (h : Inv E w) {i : Nat} {args : α}
    (hr : (storage.invoke E i args w : Outcome σ ρ).world = some w1) : Inv E w1 := by
  cases hi : w.load i with
  | none => simp [storage.invoke, hi, Outcome.world] at hr
  | some s =>
    have hwf := h.view i s hi
    cases hd : s.desc with
    | empty =>
      rw [invoke_empty args hi hd] at hr
      simp only [Outcome.world, Option.some.injEq] at hr
      rw [← hr]; exact h
    | of t =>
      cases hf : fits_small_storage E t with
      | true =>
        obtain ⟨v, hv⟩ := wf_inline hwf hd hf
        rw [invoke_inline args hi hd hf hv] at hr
        have hs : ∀ v1, Inv E (w.store i ⟨.obj v1, .of t⟩) := by
          intro v1
          refine h.store _ hi ?_ ?_
          · simp [storage.wf, hf, storage.get_static]
          · rw [owned_inline hd hf]; simp [storage.owned, hf]
        rcases hc : (E.types t).call v args with ⟨v1, r | r⟩ <;>
          simp only [hc, Outcome.world, Option.some.injEq] at hr <;>
          rw [← hr] <;> exact hs v1
      | false =>
        obtain ⟨p, hp⟩ := wf_heap hwf hd hf
        rw [invoke_heap args hi hd hf hp] at hr
        cases hv : w.heap_read p with
        | none => simp [hv, Outcome.world] at hr
        | some v =>
          simp only [hv] at hr
          rcases hc : (E.types t).call v args with ⟨v1, r | r⟩ <;>
            simp only [hc, Outcome.world, Option.some.injEq] at hr <;>
            rw [← hr] <;> exact h.heap_write v1 hv

/-- Construction from a callable of an inline type. -/
theorem ctor_from_inline {w : World σ} {t : TypeId} (val : σ)
    (hf : fits_small_storage E t = true) :
    storage.ctor_from E t val w =
      match (E.types t).move_ctor val with
      | .ok (c, _) => .ret (w.push ⟨.obj c, .of t⟩) w.objs.length
      | .error _ => .fault := by
  unfold storage.ctor_from initialize_storage
  simp only [hf, if_true]
  cases (E.types t).move_ctor val with
  | ok cr => rfl
  | error e => rfl

/-- Construction from a callable of a heap-backed type. -/
theorem ctor_from_heap {w : World σ} {t : TypeId} (val : σ)
    (hf : fits_small_storage E t = false) :
    storage.ctor_from E t val w =
      match w.heap_new (((E.types t).move_ctor val).map Prod.fst) with
      | .ok (a, w1) => .ret (w1.push ⟨.ptr a, .of t⟩) w.objs.length
      | .error e => .raise w e := by
  unfold storage.ctor_from initialize_storage
  simp only [hf, Bool.false_eq_true, if_false]
  cases w.heap_new (((E.types t).move_ctor val).map Prod.fst) with
  | ok aw => rfl
  | error e => rfl

/-- Construction from a callable keeps the invariant. -/
theorem Inv.ctor_from {w w1 : World σ} (h : Inv E w) {t : TypeId} {val : σ}
    (hr : (storage.ctor_from E t val w).world = some w1) : Inv E w1 := by
  cases hf : fits_small_storage E t with
  | true =>
    rw [ctor_from_inline val hf] at hr
    cases hc : (E.types t).move_ctor val with
    | ok cr =>
      obtain ⟨c, r⟩ := cr
      simp only [hc, Outcome.world, Option.some.injEq] at hr
      rw [← hr]
      exact h.push _ (by simp [storage.wf, hf, storage.get_static]) (by simp [storage.owned, hf])
    | error e => simp [hc, Outcome.world] at hr
  | false =>
    rw [ctor_from_heap val hf] at hr
    cases hn : w.heap_new (((E.types t).move_ctor val).map Prod.fst) with
    | ok aw =>
      obtain ⟨a, w2⟩ := aw
      simp only [hn, Outcome.world, Option.some.injEq] at hr
      obtain ⟨c, _, ha, hw2⟩ := heap_new_ok hn
      rw [← hr, ha, hw2]
      exact h.alloc_push c hf
    | error e =>
      simp only [hn, Outcome.world, Option.some.injEq] at hr
      rw [← hr]; exact h

/-- Destruction keeps the invariant. -/
theorem Inv.dtor {w w1 : World σ} (h : Inv E w) {i : Nat}
    (hr : (storage.dtor E i w).world = some w1) : Inv E w1 := by
  cases hi : w.load i with
  | none => simp [storage.dtor, hi, Outcome.world] at hr
  | some s =>
    obtain ⟨w2, he, hinv, _⟩ := dtor_spec h hi
    rw [he] at hr
    simp only [Outcome.world, Option.some.injEq] at hr
    rw [← hr]; exact hinv

/-- Copy assignment keeps the invariant, whether it returns or throws. -/
theorem Inv.assign_copy {w w1 : World σ} (h : Inv E w) {this other : Nat}
    (hr : (storage.assign_copy E this other w).world = some w1) : Inv E w1 := by
  unfold storage.assign_copy at hr
  by_cases hne : this = other
  · simp only [hne, ne_eq, not_true_eq_false, if_false, Outcome.world, Option.some.injEq] at hr
    rw [← hr]; exact h
  · simp only [ne_eq, hne, not_false_eq_true, if_true] at hr
    cases hc : storage.ctor_copy E other w with
    | fault => simp [hc, Outcome.world] at hr
    | raise w2 e =>
      simp only [hc, Outcome.world, Option.some.injEq] at hr
      rw [← hr]
      exact h.ctor_copy (by rw [hc]; rfl)
    | ret w2 tmp =>
      have h2 : Inv E w2 := h.ctor_copy (by rw [hc]; rfl)
      simp only [hc] at hr
      cases hs : storage.swap tmp this w2 with
      | fault => simp [hs, Outcome.world] at hr
      | raise w3 e => simp [hs, Outcome.world] at hr
      | ret w3 u =>
        have h3 : Inv E w3 := h2.swap (by rw [hs]; rfl)
        simp only [hs] at hr
        exact h3.dtor hr

/-- Move assignment keeps the invariant. -/
theorem Inv.assign_move {w w1 : World σ} (h : Inv E w) {this other : Nat}
    (hr : (storage.assign_move E this other w).world = some w1) : Inv E w1 := by
  unfold storage.assign_move at hr
  by_cases hne : this = other
  · simp only [hne, ne_eq, not_true_eq_false, if_false, Outcome.world, Option.some.injEq] at hr
    rw [← hr]; exact h
  · simp only [ne_eq, hne, not_false_eq_true, if_true] at hr
    cases hc : storage.ctor_move E other w with
    | fault => simp [hc, Outcome.world] at hr
    | raise w2 e => simp [hc, Outcome.world] at hr
    | ret w2 tmp =>
      have h2 : Inv E w2 := h.ctor_move (by rw [hc]; rfl)
      simp only [hc] at hr
      cases hs : storage.swap tmp this w2 with
      | fault => simp [hs, Outcome.world] at hr
      | raise w3 e => simp [hs, Outcome.world] at hr
      | ret w3 u =>
        have h3 : Inv E w3 := h2.swap (by rw [hs]; rfl)
        simp only [hs] at hr
        exact h3.dtor hr

/-- Every operation keeps the invariant. -/
theorem Inv.step {w w1 : World σ} (h : Inv E w) (op : Op σ α)
    (hr : op.run E w = some w1) : Inv E w1 := by
  cases op with
  | ctor_default =>
    simp only [Op.run, storage.ctor_default, Outcome.world, Option.some.injEq] at hr
    rw [← hr]
    exact h.push _ wf_default owned_default
  | ctor_from t val => exact h.ctor_from hr
  | ctor_copy other => exact h.ctor_copy hr
  | ctor_move other => exact h.ctor_move hr
  | assign_copy this other => exact h.assign_copy hr
  | assign_move this other => exact h.assign_move hr
  | call this args => exact h.invoke hr
  | dtor this => exact h.dtor hr
  | swap this rhs => exact h.swap hr

/-- The invariant holds in every reachable state. -/
theorem Reachable.inv {w : World σ} (h : Reachable E w) : Inv E w := by
  induction h with
  | init cap => exact Inv.init cap
  | step op _ hr ih => exact ih.step op hr

/-- The second half of both assignments: the temporary `tmp` is swapped with
`*this` and destroyed, so `*this` holds what the temporary held and what
`*this` held before is released. -/
theorem assign_tail {w1 : World σ} (h : Inv E w1) {tmp this : Nat} {st si : storage σ}
    (ht : w1.load tmp = some st) (hi : w1.load this = some si) (hne : tmp ≠ this) :
    ∃ w3, (match storage.swap tmp this w1 with
        | .ret w2 _ => storage.dtor E tmp w2
        | _ => .fault) = .ret w3 ()
      ∧ Inv E w3 ∧ w3.load this = some st ∧ w3.load tmp = none
      ∧ (∀ j, j ≠ this → j ≠ tmp → w3.load j = w1.load j)
      ∧ (∀ a, w3.heap_read a = if si.owned E = some a then none else w1.heap_read a)
      ∧ w3.objs.length = w1.objs.length ∧ w3.heap.length = w1.heap.length
      ∧ w3.cap = w1.cap := by
  obtain ⟨he, hload⟩ := swap_load ht hi
  have h2 : Inv E ((w1.store tmp si).store this st) := h.swap (by rw [he]; rfl)
  have hl2 : ((w1.store tmp si).store this st).load tmp = some si := by
    rw [hload]; simp [hne]
  obtain ⟨w3, hd, h3, hl3, hh3, hlen, hhl, hcap⟩ := dtor_spec h2 hl2
  refine ⟨w3, ?_, h3, ?_, ?_, ?_, ?_, ?_, ?_, ?_⟩
  · rw [he]; exact hd
  · rw [hl3, hload]; simp [Ne.symm hne]
  · rw [hl3]; simp
  · intro j hj1 hj2
    rw [hl3, hload]; simp [hj1, hj2]
  · intro a
    rw [hh3, heap_read_store, heap_read_store]
  · rw [hlen]; simp [World.store]
  · rw [hhl]; rfl
  · rw [hcap]; rfl

/-- What a caller observes when invoking a well-formed storage: the empty
table throws, any other table calls the payload. -/
theorem invoke_result {w : World σ} {i : Nat} {s : storage σ} (args : α)
    (hi : w.load i = some s) (hwf : s.wf E) :
    (storage.invoke E i args w : Outcome σ ρ).result =
      match s.desc with
      | .empty => some (.error .bad_function_call)
      | .of t => (w.payload E s).map (fun v => ((E.types t).call v args).2) := by
  cases hd : s.desc with
  | empty => rw [invoke_empty args hi hd]; rfl
  | of t =>
    cases hf : fits_small_storage E t with
    | true =>
      obtain ⟨v, hv⟩ := wf_inline hwf hd hf
      rw [invoke_inline args hi hd hf hv]
      simp only [World.payload, hd, hf, if_true, storage.get_static, hv, Option.map_some']
      rcases (E.types t).call v args with ⟨v1, r | r⟩ <;> rfl
    | false =>
      obtain ⟨p, hp⟩ := wf_heap hwf hd hf
      rw [invoke_heap args hi hd hf hp]
      simp only [World.payload, hd, hf, Bool.false_eq_true, if_false, storage.get_dynamic, hp]
      cases w.heap_read p with
      | none => rfl
      | some v =>
        simp only [Option.map_some']
        rcases (E.types t).call v args with ⟨v1, r | r⟩ <;> rfl

theorem payload_inline (w : World σ) {t : TypeId} (v : σ)
    (hf : fits_small_storage E t = true) : w.payload E ⟨.obj v, .of t⟩ = some v := by
  simp [World.payload, hf, storage.get_static]

theorem payload_heap (w : World σ) {t : TypeId} (p : Nat)
    (hf : fits_small_storage E t = false) : w.payload E ⟨.ptr p, .of t⟩ = w.heap_read p := by
  simp [World.payload, hf, storage.get_dynamic]

/-- The result of `target` is determined by the storage and its address. -/
theorem target_load {w : World σ} {i : Nat} {s : storage σ} (t : TypeId)
    (hi : w.load i = some s) :
    function.target E t i w =
      if function.operator_bool s && s.check_type t then get_target E t i s else some .null := by
  simp [function.target, hi]

/-- What invoking observes depends on the storage and on the payload only. -/
theorem invoke_result_congr {w w1 : World σ} {i j : Nat} {s : storage σ} (args : α)
    (hi : w.load i = some s) (hj : w1.load j = some s) (hwf : s.wf E)
    (hp : w1.payload E s = w.payload E s) :
    (storage.invoke E j args w1 : Outcome σ ρ).result
      = (storage.invoke E i args w : Outcome σ ρ).result := by
  rw [invoke_result args hi hwf, invoke_result args hj hwf, hp]

/-- The destructor of a storage with a heap-backed table deletes the pointer
in the buffer. -/
theorem dtor_heap {w : World σ} {i : Nat} {s : storage σ} {t : TypeId} {p : Nat}
    (hi : w.load i = some s) (hd : s.desc = .of t)
    (hf : fits_small_storage E t = false) (hb : s.buf = .ptr p) :
    storage.dtor E i w =
      match w.heap_delete p with
      | some w0 => .ret (w0.kill i) ()
      | none => .fault := by
  unfold storage.dtor
  rw [hi]
  simp only [hd, deref_heap hf, heap_type_descriptor, hi, storage.get_dynamic, hb]
  cases w.heap_delete p <;> rfl

/-- The payload of a storage depends on the block its buffer points to only. -/
theorem payload_congr {w w1 : World σ} {s : storage σ}
    (hh : ∀ p, s.buf = .ptr p → w1.heap_read p = w.heap_read p) :
    w1.payload E s = w.payload E s := by
  unfold World.payload
  cases hd : s.desc with
  | empty => rfl
  | of t =>
    cases hf : fits_small_storage E t with
    | true => simp [hf]
    | false =>
      simp only [hf, Bool.false_eq_true, if_false]
      cases hb : s.buf with
      | obj v => simp [storage.get_dynamic, hb]
      | ptr p =>
        simp only [storage.get_dynamic, hb]
        exact hh p hb

/-- A storage with a heap-backed table and a present payload owns its block. -/
theorem owned_of_payload {w : World σ} {s : storage σ} {t : TypeId} {p : Nat} {v : σ}
    (hd : s.desc = .of t) (hf : fits_small_storage E t = false) (hb : s.buf = .ptr p)
    (hv : w.heap_read p = some v) : s.owned E = some p := by
  rw [owned_heap (E := E) hd hf hb]
  have := (heap_read_lt hv).1
  simp [Nat.ne_of_gt this]

/-- Copy construction from a storage holding a present payload whose copy
constructor returns, with room in the allocator for a heap-backed type: the
new storage has the table of the source and holds the copy; the source and
every block that was live are as before; a heap-backed copy sits in a block
that was not live. -/
theorem ctor_copy_spec {w : World σ} (h : Inv E w) {src : Nat} {ss : storage σ} {t : TypeId}
    {v c : σ} (hs : w.load src = some ss) (hd : ss.desc = .of t)
    (hv : w.payload E ss = some v) (hc : (E.types t).copy_ctor v = .ok c)
    (hroom : fits_small_storage E t = false → w.heap.length < w.cap) :
    ∃ w1 sd, storage.ctor_copy E src w = .ret w1 w.objs.length ∧ Inv E w1
      ∧ w1.load w.objs.length = some sd ∧ sd.desc = .of t ∧ w1.payload E sd = some c
      ∧ (∀ j, j ≠ w.objs.length → w1.load j = w.load j)
      ∧ (∀ a x, w.heap_read a = some x → w1.heap_read a = some x)
      ∧ (∀ q, sd.buf = .ptr q → w.heap_read q = none)
      ∧ w1.heap.length = w.heap.length + (if fits_small_storage E t then 0 else 1) := by
  have hwf := h.view src ss hs
  cases hf : fits_small_storage E t with
  | true =>
    obtain ⟨v0, hv0⟩ := wf_inline hwf hd hf
    have hvv : v0 = v := by
      simp only [World.payload, hd, hf, if_true, storage.get_static, hv0,
        Option.some.injEq] at hv
      exact hv
    subst hvv
    have he := ctor_copy_inline hs hd hf hv0
    rw [hc] at he
    refine ⟨w.push ⟨.obj c, .of t⟩, ⟨.obj c, .of t⟩, he, h.ctor_copy (by rw [he]; rfl),
      load_push_new w _, rfl, payload_inline _ c hf, ?_, ?_, ?_, ?_⟩
    · intro j hj; rw [load_push]; simp [hj]
    · intro a x hx; rw [heap_read_push]; exact hx
    · intro q hq; cases hq
    · simp [World.push]
  | false =>
    obtain ⟨p, hp⟩ := wf_heap hwf hd hf
    have hvp : w.heap_read p = some v := by
      simpa only [World.payload, hd, hf, Bool.false_eq_true, if_false, storage.get_dynamic,
        hp] using hv
    have hlt := hroom hf
    have he := ctor_copy_heap hs hd hf hp
    rw [hvp] at he
    simp only [World.heap_new, hlt, if_true, hc] at he
    refine ⟨({ w with heap := w.heap ++ [some c] } : World σ).push
        ⟨.ptr (w.heap.length + 1), .of t⟩, ⟨.ptr (w.heap.length + 1), .of t⟩, he,
      h.ctor_copy (by rw [he]; rfl), load_push_new _ _, rfl, ?_, ?_, ?_, ?_, ?_⟩
    · rw [payload_heap _ _ hf, heap_read_push, heap_read_append]; simp
    · intro j hj
      rw [load_push]
      have : ¬ j = ({ w with heap := w.heap ++ [some c] } : World σ).objs.length := hj
      simp only [this, if_false]
      rfl
    · intro a x hx
      rw [heap_read_push, heap_read_append]
      have := (heap_read_lt hx).2
      have hne : a ≠ w.heap.length + 1 := by omega
      simp only [hne, if_false]; exact hx
    · intro q hq
      simp only [Buf.ptr.injEq] at hq
      rw [← hq]; exact heap_read_fresh w
    · simp [World.push]

/-- Writing into the block owned by one storage leaves the payload of every
other storage as it was. -/
theorem payload_other_write {w : World σ} (h : Inv E w) {i j p : Nat} {s sj : storage σ}
    {v0 : σ} (u : σ) (hi : w.load i = some s) (ho : s.owned E = some p)
    (hj : w.load j = some sj) (hne : j ≠ i) (hp : w.heap_read p = some v0) :
    (w.heap_write p u).payload E sj = w.payload E sj := by
  unfold World.payload
  cases hd : sj.desc with
  | empty => rfl
  | of t =>
    cases hf : fits_small_storage E t with
    | true => simp [hf]
    | false =>
      simp only [hf, Bool.false_eq_true, if_false]
      cases hb : sj.buf with
      | obj v => simp [storage.get_dynamic, hb]
      | ptr q =>
        simp only [storage.get_dynamic, hb]
        rw [heap_read_write u hp]
        by_cases hq : q = p
        · exfalso
          have hoj : sj.owned E = some p := by
            rw [hq] at hb
            exact owned_of_payload hd hf hb hp
          exact hne (h.excl j i p (by rw [own_of_load hj]; exact hoj)
            (by rw [own_of_load hi]; exact ho))
        · simp [hq]

/-- One use of a container holding a present payload of type `t` returns; the
container still holds a payload of type `t`, and every other storage and its
payload are as before. -/
theorem touch_frame {w : World σ} (h : Inv E w) {i : Nat} {s : storage σ} {t : TypeId} {v : σ}
    (hi : w.load i = some s) (hd : s.desc = .of t) (hv : w.payload E s = some v)
    (x : Touch σ α) :
    ∃ w1 s1 v1, x.run E t i w = some w1 ∧ Inv E w1 ∧ w1.load i = some s1 ∧ s1.desc = .of t
      ∧ w1.payload E s1 = some v1
      ∧ (∀ j sj, j ≠ i → w.load j = some sj →
          w1.load j = some sj ∧ w1.payload E sj = w.payload E sj) := by
  have hwf := h.view i s hi
  have hlt := load_lt hi
  have hb : function.operator_bool s = true := by simp [function.operator_bool, hd]
  have hc : s.check_type t = true := by simp [storage.check_type, hd]
  cases hf : fits_small_storage E t with
  | true =>
    obtain ⟨v0, hv0⟩ := wf_inline hwf hd hf
    have hfin : ∀ u, Inv E (w.store i ⟨.obj u, .of t⟩)
        ∧ (w.store i ⟨.obj u, .of t⟩).load i = some ⟨.obj u, .of t⟩
        ∧ (⟨.obj u, .of t⟩ : storage σ).desc = .of t
        ∧ (w.store i ⟨.obj u, .of t⟩).payload E ⟨.obj u, .of t⟩ = some u
        ∧ (∀ j sj, j ≠ i → w.load j = some sj →
            (w.store i ⟨.obj u, .of t⟩).load j = some sj
              ∧ (w.store i ⟨.obj u, .of t⟩).payload E sj = w.payload E sj) := by
      intro u
      refine ⟨?_, ?_, rfl, payload_inline _ u hf, ?_⟩
      · refine h.store _ hi ?_ ?_
        · simp [storage.wf, hf, storage.get_static]
        · rw [owned_inline hd hf]; simp [storage.owned, hf]
      · rw [load_store _ hlt]; simp
      · intro j sj hj hsj
        refine ⟨?_, payload_congr (fun p _ => heap_read_store w i _ p)⟩
        rw [load_store _ hlt]; simp [hj, hsj]
    cases x with
    | call args =>
      rcases hcall : (E.types t).call v0 args with ⟨u, r | r⟩
      · refine ⟨_, _, u, ?_, hfin u⟩
        simp only [Touch.run, function.call, invoke_inline args hi hd hf hv0, hcall]
        rfl
      · refine ⟨_, _, u, ?_, hfin u⟩
        simp only [Touch.run, function.call, invoke_inline args hi hd hf hv0, hcall]
        rfl
    | write u =>
      refine ⟨_, _, u, ?_, hfin u⟩
      simp only [Touch.run, function.write_target, target_load t hi, hb, hc, Bool.and_self,
        if_true, get_target, hf, hi, storage.set_static, hd]
  | false =>
    obtain ⟨p, hp⟩ := wf_heap hwf hd hf
    have hvp : w.heap_read p = some v := by
      simpa only [World.payload, hd, hf, Bool.false_eq_true, if_false, storage.get_dynamic,
        hp] using hv
    have hown := owned_of_payload (E := E) hd hf hp hvp
    have hp0 : p ≠ 0 := Nat.ne_of_gt (heap_read_lt hvp).1
    have hfin : ∀ u, Inv E (w.heap_write p u)
        ∧ (w.heap_write p u).load i = some s ∧ s.desc = .of t
        ∧ (w.heap_write p u).payload E s = some u
        ∧ (∀ j sj, j ≠ i → w.load j = some sj →
            (w.heap_write p u).load j = some sj
              ∧ (w.heap_write p u).payload E sj = w.payload E sj) := by
      intro u
      refine ⟨h.heap_write u hvp, ?_, hd, ?_, ?_⟩
      · rw [load_heap_write]; exact hi
      · simp only [World.payload, hd, hf, Bool.false_eq_true, if_false, storage.get_dynamic, hp]
        rw [heap_read_write u hvp]; simp
      · intro j sj hj hsj
        refine ⟨by rw [load_heap_write]; exact hsj, ?_⟩
        exact payload_other_write h u hi hown hsj hj hvp
    cases x with
    | call args =>
      rcases hcall : (E.types t).call v args with ⟨u, r | r⟩
      · refine ⟨_, _, u, ?_, hfin u⟩
        simp only [Touch.run, function.call, invoke_heap args hi hd hf hp, hvp, hcall]
        rfl
      · refine ⟨_, _, u, ?_, hfin u⟩
        simp only [Touch.run, function.call, invoke_heap args hi hd hf hp, hvp, hcall]
        rfl
    | write u =>
      refine ⟨_, _, u, ?_, hfin u⟩
      simp only [Touch.run, function.write_target, target_load t hi, hb, hc, Bool.and_self,
        if_true, get_target, hf, Bool.false_eq_true, if_false, storage.get_dynamic, hp,
        Option.map_some', Ptr.of_addr, hp0, hvp]

/-- Any sequence of uses of a container holding a present payload returns and
leaves every other storage and its payload as they were. -/
theorem touches_frame (xs : List (Touch σ α)) {w : World σ} (h : Inv E w) {i : Nat}
    {s : storage σ} {t : TypeId} {v : σ}
    (hi : w.load i = some s) (hd : s.desc = .of t) (hv : w.payload E s = some v) :
    ∃ w2, touches E t i xs w = some w2 ∧ Inv E w2
      ∧ (∀ j sj, j ≠ i → w.load j = some sj →
          w2.load j = some sj ∧ w2.payload E sj = w.payload E sj) := by
  induction xs generalizing w s v with
  | nil => exact ⟨w, rfl, h, fun j sj _ hsj => ⟨hsj, rfl⟩⟩
  | cons x xs ih =>
    obtain ⟨w1, s1, v1, hr, h1, hi1, hd1, hv1, hfr⟩ := touch_frame h hi hd hv x
    obtain ⟨w2, hr2, h2, hfr2⟩ := ih h1 hi1 hd1 hv1
    refine ⟨w2, ?_, h2, ?_⟩
    · simp only [touches, hr]; exact hr2
    · intro j sj hj hsj
      obtain ⟨ha, hb⟩ := hfr j sj hj hsj
      obtain ⟨hc, hd2⟩ := hfr2 j sj hj ha
      exact ⟨hc, by rw [hd2, hb]⟩

/-- When copy construction throws, the state is the old one with a dead slot
for the temporary, and the source holds a payload whose copy constructor threw
that exception or, for a heap-backed type, the allocator was exhausted. -/
theorem ctor_copy_raise {w w1 : World σ} (h : Inv E w) {b : Nat} {e : Exn}
    (hfail : storage.ctor_copy E b w = .raise w1 e) :
    w1 = { w with objs := w.objs ++ [none] }
    ∧ ∃ sb t v, w.load b = some sb ∧ sb.desc = .of t ∧ w.payload E sb = some v
      ∧ ((E.types t).copy_ctor v = .error e
        ∨ (fits_small_storage E t = false ∧ w.cap ≤ w.heap.length ∧ e = .bad_alloc)) := by
  cases hb : w.load b with
  | none => simp [storage.ctor_copy, hb] at hfail
  | some sb =>
    have hwf := h.view b sb hb
    cases hd : sb.desc with
    | empty => rw [ctor_copy_empty hb hd] at hfail; cases hfail
    | of t =>
      cases hf : fits_small_storage E t with
      | true =>
        obtain ⟨v, hv⟩ := wf_inline hwf hd hf
        rw [ctor_copy_inline hb hd hf hv] at hfail
        cases hc : (E.types t).copy_ctor v with
        | ok c => rw [hc] at hfail; cases hfail
        | error e1 =>
          rw [hc] at hfail
          simp only [Outcome.raise.injEq] at hfail
          refine ⟨hfail.1.symm, sb, t, v, rfl, hd, ?_, Or.inl (by rw [← hfail.2]; exact hc)⟩
          simp [World.payload, hd, hf, storage.get_static, hv]
      | false =>
        obtain ⟨p, hp⟩ := wf_heap hwf hd hf
        rw [ctor_copy_heap hb hd hf hp] at hfail
        cases hv : w.heap_read p with
        | none => rw [hv] at hfail; cases hfail
        | some v =>
          rw [hv] at hfail
          have hpay : w.payload E sb = some v := by
            simp [World.payload, hd, hf, storage.get_dynamic, hp, hv]
          simp only [World.heap_new] at hfail
          by_cases hlt : w.heap.length < w.cap
          · simp only [hlt, if_true] at hfail
            cases hc : (E.types t).copy_ctor v with
            | ok c => rw [hc] at hfail; cases hfail
            | error e1 =>
              rw [hc] at hfail
              simp only [Outcome.raise.injEq] at hfail
              exact ⟨hfail.1.symm, sb, t, v, rfl, hd, hpay, Or.inl (by rw [← hfail.2]; exact hc)⟩
          · simp only [hlt, if_false, Outcome.raise.injEq] at hfail
            exact ⟨hfail.1.symm, sb, t, v, rfl, hd, hpay,
              Or.inr ⟨hf, Nat.le_of_not_lt hlt, hfail.2.symm⟩⟩

theorem store_load_self {w : World σ} {i : Nat} {s : storage σ} (h : w.load i = some s) :
    w.store i s = w := by
  have hlt := load_lt h
  have hobj : w.objs.set i (some s) = w.objs := by
    apply List.ext_getElem?
    intro j
    rw [List.getElem?_set]
    by_cases hj : i = j
    · subst hj
      unfold World.load at h
      rw [List.getD_eq_getElem?_getD, List.getElem?_eq_getElem hlt] at h
      simp only [Option.getD_some] at h
      simp [hlt, h]
    · simp [hj]
  cases w
  simp only [World.store] at hobj ⊢
  rw [hobj]

theorem store_store_same (w : World σ) (i : Nat) (x y : storage σ) :
    (w.store i x).store i y = w.store i y := by
  simp [World.store]

theorem store_store_comm (w : World σ) {i j : Nat} (x y : storage σ) (h : i ≠ j) :
    (w.store i x).store j y = (w.store j y).store i x := by
  simp only [World.store]
  rw [List.set_comm _ _ _ h]

/-- What copy construction does to the rest of the state: the new storage is
the only change to the objects, live blocks keep their contents, and one
block is allocated exactly when it returns a heap-backed copy. -/
theorem ctor_copy_frame {w w1 : World σ} (h : Inv E w) {i : Nat} {s : storage σ}
    (hi : w.load i = some s) (hr : (storage.ctor_copy E i w).world = some w1) :
    (∀ j, j ≠ w.objs.length → w1.load j = w.load j)
    ∧ w1.objs.length = w.objs.length + 1
    ∧ (∀ k, storage.ctor_copy E i w = .ret w1 k →
        k = w.objs.length ∧ (∃ sd, w1.load k = some sd ∧ sd.desc = s.desc)
        ∧ w1.allocs = w.allocs + if s.is_heap E then 1 else 0)
    ∧ (∀ e, storage.ctor_copy E i w = .raise w1 e → w1.heap = w.heap) := by
  have hwf := h.view i s hi
  have hpush : ∀ x : storage σ, x.desc = s.desc →
      (∀ j, j ≠ w.objs.length → (w.push x).load j = w.load j)
      ∧ (w.push x).objs.length = w.objs.length + 1
      ∧ (∃ sd, (w.push x).load w.objs.length = some sd ∧ sd.desc = s.desc) := by
    intro x hx
    refine ⟨?_, by simp [World.push], x, load_push_new w x, hx⟩
    intro j hj; rw [load_push]; simp [hj]
  have hnone : (∀ j, j ≠ w.objs.length →
        ({ w with objs := w.objs ++ [none] } : World σ).load j = w.load j)
      ∧ ({ w with objs := w.objs ++ [none] } : World σ).objs.length = w.objs.length + 1 :=
    ⟨fun j _ => load_push_none w j, by simp⟩
  have hcase : s.desc = .empty ∨ ∃ t, s.desc = .of t := by
    cases s.desc <;> simp
  rcases hcase with hd | ⟨t, hd⟩
  · have he := ctor_copy_empty (E := E) hi hd
    rw [he] at hr
    simp only [Outcome.world, Option.some.injEq] at hr
    subst hr
    obtain ⟨h1, h2, h3⟩ := hpush ⟨.ptr 0, .empty⟩ hd.symm
    refine ⟨h1, h2, ?_, ?_⟩
    · intro k hk
      rw [he] at hk
      simp only [Outcome.ret.injEq] at hk
      rw [← hk.2]
      exact ⟨rfl, h3, by simp [storage.is_heap, hd, World.allocs, World.push]⟩
    · intro e hk; rw [he] at hk; cases hk
  · cases hf : fits_small_storage E t with
    | true =>
      obtain ⟨v, hv⟩ := wf_inline hwf hd hf
      have he := ctor_copy_inline hi hd hf hv
      cases hc : (E.types t).copy_ctor v with
      | ok c =>
        rw [hc] at he
        rw [he] at hr
        simp only [Outcome.world, Option.some.injEq] at hr
        subst hr
        obtain ⟨h1, h2, h3⟩ := hpush ⟨.obj c, .of t⟩ hd.symm
        refine ⟨h1, h2, ?_, ?_⟩
        · intro k hk
          rw [he] at hk
          simp only [Outcome.ret.injEq] at hk
          rw [← hk.2]
          exact ⟨rfl, h3, by simp [storage.is_heap, hd, hf, World.allocs, World.push]⟩
        · intro e hk; rw [he] at hk; cases hk
      | error e1 =>
        rw [hc] at he
        rw [he] at hr
        simp only [Outcome.world, Option.some.injEq] at hr
        subst hr
        refine ⟨hnone.1, hnone.2, ?_, fun _ _ => rfl⟩
        intro k hk; rw [he] at hk; cases hk
    | false =>
      obtain ⟨p, hp⟩ := wf_heap hwf hd hf
      have he := ctor_copy_heap hi hd hf hp
      cases hv : w.heap_read p with
      | none => rw [hv] at he; rw [he] at hr; cases hr
      | some v =>
        rw [hv] at he
        cases hn : w.heap_new ((E.types t).copy_ctor v) with
        | ok aw =>
          obtain ⟨a, w2⟩ := aw
          simp only [hn] at he
          obtain ⟨c, _, ha, hw2⟩ := heap_new_ok hn
          rw [he] at hr
          simp only [Outcome.world, Option.some.injEq] at hr
          subst hr
          subst hw2
          refine ⟨?_, by simp [World.push], ?_, ?_⟩
          · intro j hj
            rw [load_push]
            have : ¬ j = ({ w with heap := w.heap ++ [some c] } : World σ).objs.length := hj
            simp only [this, if_false]
            rfl
          · intro k hk
            rw [he] at hk
            simp only [Outcome.ret.injEq] at hk
            rw [← hk.2]
            refine ⟨rfl, ⟨⟨.ptr a, .of t⟩, load_push_new _ _, hd.symm⟩, ?_⟩
            simp [storage.is_heap, hd, hf, World.allocs, World.push]
          · intro e hk; rw [he] at hk; cases hk
        | error e1 =>
          simp only [hn] at he
          rw [he] at hr
          simp only [Outcome.world, Option.some.injEq] at hr
          subst hr
          refine ⟨hnone.1, hnone.2, ?_, fun _ _ => rfl⟩
          intro k hk; rw [he] at hk; cases hk

/-- What move construction does to the rest of the state: the source keeps
its table, the new storage has that table too, no other object changes and
the free store is untouched. -/
theorem ctor_move_frame {w w1 : World σ} (h : Inv E w) {i : Nat} {s : storage σ}
    (hi : w.load i = some s) (hr : (storage.ctor_move E i w).world = some w1) :
    storage.ctor_move E i w = .ret w1 w.objs.length
    ∧ (∀ j, j ≠ w.objs.length → j ≠ i → w1.load j = w.load j)
    ∧ (∃ s1, w1.load i = some s1 ∧ s1.desc = s.desc)
    ∧ (∃ sd, w1.load w.objs.length = some sd ∧ sd.desc = s.desc)
    ∧ w1.objs.length = w.objs.length + 1 ∧ w1.heap = w.heap := by
  have hwf := h.view i s hi
  have hlt := load_lt hi
  have hne : i ≠ w.objs.length := Nat.ne_of_lt hlt
  have hfin : ∀ x y : storage σ, x.desc = s.desc → y.desc = s.desc →
      (∀ j, j ≠ w.objs.length → j ≠ i → ((w.store i x).push y).load j = w.load j)
      ∧ (∃ s1, ((w.store i x).push y).load i = some s1 ∧ s1.desc = s.desc)
      ∧ (∃ sd, ((w.store i x).push y).load w.objs.length = some sd ∧ sd.desc = s.desc)
      ∧ ((w.store i x).push y).objs.length = w.objs.length + 1
      ∧ ((w.store i x).push y).heap = w.heap := by
    intro x y hx hy
    have hlen : (w.store i x).objs.length = w.objs.length := by simp [World.store]
    refine ⟨?_, ⟨x, ?_, hx⟩, ⟨y, ?_, hy⟩, by simp [World.push, World.store], rfl⟩
    · intro j hj1 hj2
      rw [load_push, load_store _ hlt, hlen]; simp [hj1, hj2]
    · rw [load_push, load_store _ hlt, hlen]; simp [hne]
    · rw [load_push, hlen]; simp
  have hcase : s.desc = .empty ∨ ∃ t, s.desc = .of t := by
    cases s.desc <;> simp
  rcases hcase with hd | ⟨t, hd⟩
  · have he := ctor_move_empty (E := E) hi hd
    rw [he] at hr
    simp only [Outcome.world, Option.some.injEq] at hr
    subst hr
    refine ⟨he, ?_, ⟨s, load_push_old _ hi, rfl⟩, ⟨_, load_push_new w _, hd.symm⟩,
      by simp [World.push], rfl⟩
    intro j hj _; rw [load_push]; simp [hj]
  · cases hf : fits_small_storage E t with
    | true =>
      obtain ⟨v, hv⟩ := wf_inline hwf hd hf
      have he := ctor_move_inline hi hd hf hv
      cases hc : (E.types t).move_ctor v with
      | ok cr =>
        obtain ⟨c, r⟩ := cr
        rw [hc] at he
        rw [he] at hr
        simp only [Outcome.world, Option.some.injEq] at hr
        subst hr
        exact ⟨by rw [he], hfin ⟨.obj r, .of t⟩ ⟨.obj c, .of t⟩ hd.symm hd.symm⟩
      | error e1 => rw [hc] at he; rw [he] at hr; cases hr
    | false =>
      obtain ⟨p, hp⟩ := wf_heap hwf hd hf
      have he := ctor_move_heap hi hd hf hp
      rw [he] at hr
      simp only [Outcome.world, Option.some.injEq] at hr
      subst hr
      exact ⟨by rw [he], hfin ⟨.ptr 0, .of t⟩ ⟨.ptr p, .of t⟩ hd.symm hd.symm⟩

/-- The second half of both assignments, when it does not fault: only `*this`
and the temporary change, and nothing is allocated. -/
theorem assign_tail_frame {w1 w3 : World σ} (h : Inv E w1) {tmp this : Nat}
    (hne : tmp ≠ this)
    (hr : (match storage.swap tmp this w1 with
        | .ret w2 _ => storage.dtor E tmp w2
        | _ => .fault).world = some w3) :
    (∀ j, j ≠ this → j ≠ tmp → w3.load j = w1.load j)
    ∧ w3.heap.length = w1.heap.length ∧ Inv E w3 := by
  cases ht : w1.load tmp with
  | none => simp [storage.swap, ht, Outcome.world] at hr
  | some st =>
    cases hi : w1.load this with
    | none => simp [storage.swap, ht, hi, Outcome.world] at hr
    | some si =>
      obtain ⟨w3x, he, h3, _, _, hfr, _, _, hlen, _⟩ := assign_tail h ht hi hne
      rw [he] at hr
      simp only [Outcome.world, Option.some.injEq] at hr
      subst hr
      exact ⟨hfr, hlen, h3⟩

/-- At the end of a scope of a state satisfying the invariant every destructor
returns and no storage below `n` is left. -/
theorem dtor_all_spec (n : Nat) {w : World σ} (h : Inv E w) :
    ∃ w1, storage.dtor_all E n w = some w1 ∧ Inv E w1
      ∧ (∀ j, w1.load j = if j < n then none else w.load j) := by
  induction n generalizing w with
  | zero => exact ⟨w, rfl, h, fun j => by simp⟩
  | succ n ih =>
    cases hn : w.load n with
    | none =>
      obtain ⟨w1, he, h1, hl⟩ := ih h
      refine ⟨w1, by simp only [storage.dtor_all, hn]; exact he, h1, ?_⟩
      intro j
      rw [hl]
      by_cases hj : j < n
      · simp [hj, Nat.lt_succ_of_lt hj]
      · by_cases hjn : j = n
        · subst hjn; simp [hn]
        · have : ¬ j < n + 1 := by omega
          simp [hj, this]
    | some s =>
      obtain ⟨w2, hd, h2, hl2, _⟩ := dtor_spec h hn
      obtain ⟨w1, he, h1, hl⟩ := ih h2
      refine ⟨w1, by simp only [storage.dtor_all, hn, hd]; exact he, h1, ?_⟩
      intro j
      rw [hl, hl2]
      by_cases hj : j < n
      · simp [hj, Nat.lt_succ_of_lt hj]
      · by_cases hjn : j = n
        · subst hjn; simp
        · have : ¬ j < n + 1 := by omega
          simp [hj, this, hjn]

/-- The block a storage owns is the pointer in its buffer. -/
theorem buf_of_owned {s : storage σ} {a : Nat} (h : s.owned E = some a) :
    s.buf = .ptr a ∧ a ≠ 0 ∧ ∃ t, s.desc = .of t ∧ fits_small_storage E t = false := by
  unfold storage.owned at h
  cases hd : s.desc with
  | empty => rw [hd] at h; cases h
  | of t =>
    rw [hd] at h
    cases hf : fits_small_storage E t with
    | true => simp [hf] at h
    | false =>
      simp only [hf, Bool.false_eq_true, if_false] at h
      cases hb : s.buf with
      | obj v => rw [hb] at h; cases h
      | ptr p =>
        rw [hb] at h
        cases p with
        | zero => cases h
        | succ n =>
          simp only [Option.some.injEq] at h
          exact ⟨by rw [h], by omega, t, rfl, hf⟩

/-- In a state satisfying the invariant a well-formed live storage whose
buffer holds the non-null pointer `a` owns `a`. -/
theorem owned_of_buf {s : storage σ} {a : Nat} (hwf : s.wf E) (hb : s.buf = .ptr a)
    (ha : a ≠ 0) : s.owned E = some a := by
  cases hd : s.desc with
  | empty =>
    simp only [storage.wf, hd] at hwf
    rw [hb] at hwf
    simp only [Buf.ptr.injEq] at hwf
    exact absurd hwf ha
  | of t =>
    cases hf : fits_small_storage E t with
    | true =>
      obtain ⟨v, hv⟩ := wf_inline hwf hd hf
      rw [hb] at hv; cases hv
    | false =>
      rw [owned_heap (E := E) hd hf hb]
      simp [ha]

/-- Invoking a storage leaves its table as it is. -/
theorem invoke_frame {w w1 : World σ} (h : Inv E w) {i : Nat} {s : storage σ} {args : α}
    (hi : w.load i = some s)
    (hr : (storage.invoke E i args w : Outcome σ ρ).world = some w1) :
    ∃ s1, w1.load i = some s1 ∧ s1.desc = s.desc := by
  have hwf := h.view i s hi
  have hlt := load_lt hi
  have hcase : s.desc = .empty ∨ ∃ t, s.desc = .of t := by
    cases s.desc <;> simp
  rcases hcase with hd | ⟨t, hd⟩
  · rw [invoke_empty args hi hd] at hr
    simp only [Outcome.world, Option.some.injEq] at hr
    subst hr
    exact ⟨s, hi, rfl⟩
  · cases hf : fits_small_storage E t with
    | true =>
      obtain ⟨v, hv⟩ := wf_inline hwf hd hf
      rw [invoke_inline args hi hd hf hv] at hr
      have hs : ∀ v1, ∃ s1, (w.store i ⟨.obj v1, .of t⟩).load i = some s1
          ∧ s1.desc = s.desc := by
        intro v1
        exact ⟨⟨.obj v1, .of t⟩, by rw [load_store _ hlt]; simp, hd.symm⟩
      rcases hc : (E.types t).call v args with ⟨v1, r | r⟩ <;>
        simp only [hc, Outcome.world, Option.some.injEq] at hr <;>
        subst hr <;> exact hs v1
    | false =>
      obtain ⟨p, hp⟩ := wf_heap hwf hd hf
      rw [invoke_heap args hi hd hf hp] at hr
      cases hv : w.heap_read p with
      | none => simp [hv, Outcome.world] at hr
      | some v =>
        simp only [hv] at hr
        rcases hc : (E.types t).call v args with ⟨v1, r | r⟩ <;>
          simp only [hc, Outcome.world, Option.some.injEq] at hr <;>
          subst hr <;> exact ⟨s, by rw [load_heap_write]; exact hi, rfl⟩

/-- Copy assignment to a live storage: what it does to the other storages
and to the number of allocations. -/
theorem assign_copy_frame {w w3 : World σ} (h : Inv E w) {k i : Nat} {sk s : storage σ}
    (hk : w.load k = some sk) (hi : w.load i = some s)
    (hr : (storage.assign_copy E k i w).world = some w3) :
    (k ≠ i → w3.load i = some s)
    ∧ w.allocs ≤ w3.allocs
    ∧ w3.allocs ≤ w.allocs + (if s.is_heap E then 1 else 0) := by
  unfold storage.assign_copy at hr
  by_cases hki : k = i
  · simp only [hki, ne_eq, not_true_eq_false, if_false, Outcome.world,
      Option.some.injEq] at hr
    subst hr
    exact ⟨fun hc => absurd hki hc, Nat.le_refl _, Nat.le_add_right _ _⟩
  · simp only [ne_eq, hki, not_false_eq_true, if_true] at hr
    have hklt := load_lt hk
    have hilt := load_lt hi
    cases hc : storage.ctor_copy E i w with
    | fault => simp [hc, Outcome.world] at hr
    | raise w2 e =>
      simp only [hc, Outcome.world, Option.some.injEq] at hr
      subst hr
      obtain ⟨hl, _, _, hraise⟩ := ctor_copy_frame h hi (by rw [hc]; rfl)
      refine ⟨fun _ => by rw [hl i (Nat.ne_of_lt hilt)]; exact hi, ?_, ?_⟩
      · simp only [World.allocs, hraise e hc]
        exact Nat.le_refl _
      · simp only [World.allocs, hraise e hc]
        exact Nat.le_add_right _ _
    | ret w2 tmp =>
      have h2 : Inv E w2 := h.ctor_copy (by rw [hc]; rfl)
      obtain ⟨hl, _, hret, _⟩ := ctor_copy_frame h hi (by rw [hc]; rfl)
      obtain ⟨htmp, _, hall⟩ := hret tmp hc
      simp only [hc] at hr
      have hne : tmp ≠ k := by rw [htmp]; exact Nat.ne_of_gt hklt
      obtain ⟨hfr, hlen, _⟩ := assign_tail_frame h2 hne hr
      refine ⟨fun _ => ?_, ?_, ?_⟩
      · rw [hfr i (Ne.symm hki) (by rw [htmp]; exact Nat.ne_of_lt hilt),
          hl i (Nat.ne_of_lt hilt)]
        exact hi
      · simp only [World.allocs] at hall ⊢
        rw [hlen, hall]
        exact Nat.le_add_right _ _
      · simp only [World.allocs] at hall ⊢
        rw [hlen, hall]

/-- Move assignment to a live storage: what it does to the source and to the
number of allocations. -/
theorem assign_move_frame {w w3 : World σ} (h : Inv E w) {k i : Nat} {sk s : storage σ}
    (hk : w.load k = some sk) (hi : w.load i = some s)
    (hr : (storage.assign_move E k i w).world = some w3) :
    (∃ s1, w3.load i = some s1 ∧ s1.desc = s.desc) ∧ w3.allocs = w.allocs := by
  unfold storage.assign_move at hr
  by_cases hki : k = i
  · simp only [hki, ne_eq, not_true_eq_false, if_false, Outcome.world,
      Option.some.injEq] at hr
    subst hr
    exact ⟨⟨s, hi, rfl⟩, rfl⟩
  · simp only [ne_eq, hki, not_false_eq_true, if_true] at hr
    have hklt := load_lt hk
    have hilt := load_lt hi
    cases hc : storage.ctor_move E i w with
    | fault => simp [hc, Outcome.world] at hr
    | raise w2 e => simp [hc, Outcome.world] at hr
    | ret w2 tmp =>
      have h2 : Inv E w2 := h.ctor_move (by rw [hc]; rfl)
      obtain ⟨he, _, ⟨s1, hs1, hd1⟩, _, _, hheap⟩ := ctor_move_frame h hi (by rw [hc]; rfl)
      have htmp : tmp = w.objs.length := by
        rw [hc] at he
        simp only [Outcome.ret.injEq] at he
        exact he.2
      simp only [hc] at hr
      have hne : tmp ≠ k := by rw [htmp]; exact Nat.ne_of_gt hklt
      obtain ⟨hfr, hlen, _⟩ := assign_tail_frame h2 hne hr
      refine ⟨⟨s1, ?_, hd1⟩, ?_⟩
      · rw [hfr i (Ne.symm hki) (by rw [htmp]; exact Nat.ne_of_lt hilt)]
        exact hs1
      · simp only [World.allocs]
        rw [hlen, hheap]

end Invariant

section Claims

variable {σ α ρ : Type}

/-- C1: for every callable `f` of a type `t`, inline or heap-backed, whose move
constructor yields an object equal to `f`, and every argument, constructing a
container from `f` (with room in the allocator when `t` is heap-backed)
returns, and invoking the new container gives exactly what `f(args)` gives:
the same value, or the same exception. -/
theorem C1_construct_then_invoke (E : Env σ α ρ) (t : TypeId) (f f0 : σ) (args : α)
    (w : World σ) (hmove : (E.types t).move_ctor f = .ok (f, f0))
    (hroom : fits_small_storage E t = false → w.heap.length < w.cap) :
    ∃ w1, storage.ctor_from E t f w = .ret w1 w.objs.length
      ∧ (function.call E w.objs.length args w1).result = some ((E.types t).call f args).2 := by
  cases hf : fits_small_storage E t with
  | true =>
    refine ⟨w.push ⟨.obj f, .of t⟩, ?_, ?_⟩
    · rw [ctor_from_inline f hf, hmove]
    · unfold function.call
      rw [invoke_inline args (load_push_new w _) rfl hf rfl]
      rcases (E.types t).call f args with ⟨v1, r | r⟩ <;> rfl
  | false =>
    have hlt := hroom hf
    refine ⟨({ w with heap := w.heap ++ [some f] } : World σ).push
      ⟨.ptr (w.heap.length + 1), .of t⟩, ?_, ?_⟩
    · rw [ctor_from_heap f hf, hmove]
      simp [World.heap_new, hlt, Except.map]
    · unfold function.call
      rw [invoke_heap (p := w.heap.length + 1) args
        (load_push_new ({ w with heap := w.heap ++ [some f] } : World σ)
          ⟨.ptr (w.heap.length + 1), .of t⟩) rfl hf rfl]
      rw [heap_read_push, heap_read_append]
      simp only [if_true]
      rcases (E.types t).call f args with ⟨v1, r | r⟩ <;> rfl

/-- Witness of C1: a container built from the closure adding 5 in the state
without objects, invoked with 10, yields 15. -/
theorem C1_witness :
    ∃ w1, storage.ctor_from demo 0 [5] (World.init (List Int) 0) = .ret w1 0
      ∧ (function.call demo 0 10 w1).result = some (.ok 15) :=
  C1_construct_then_invoke demo 0 [5] [] 10 (World.init (List Int) 0) rfl (by decide)

/-- C2: invoking an empty container raises `bad_function_call`, whose
diagnostic is "bad function call", for every argument: a default-constructed
container, a container copy- or move-constructed from an empty container `j`,
and any container `i` of a reachable state, whatever it holds, after the empty
container `j` has been copy- or move-assigned to it. -/
theorem C2_empty_invoke_raises (E : Env σ α ρ) (w : World σ) (i j : Nat) (si sj : storage σ)
    (args : α) (hw : Reachable E w) (hi : w.load i = some si) (hj : w.load j = some sj)
    (hd : function.operator_bool sj = false) :
    bad_function_call_what = "bad function call"
    ∧ (∃ w1 k, storage.ctor_default w = .ret w1 k
        ∧ function.call E k args w1 = (.raise w1 .bad_function_call : Outcome σ ρ))
    ∧ (∃ w1 k, storage.ctor_copy E j w = .ret w1 k
        ∧ function.call E k args w1 = (.raise w1 .bad_function_call : Outcome σ ρ))
    ∧ (∃ w1 k, storage.ctor_move E j w = .ret w1 k
        ∧ function.call E k args w1 = (.raise w1 .bad_function_call : Outcome σ ρ))
    ∧ (∃ w1, storage.assign_copy E i j w = .ret w1 ()
        ∧ function.call E i args w1 = (.raise w1 .bad_function_call : Outcome σ ρ))
    ∧ (∃ w1, storage.assign_move E i j w = .ret w1 ()
        ∧ function.call E i args w1 = (.raise w1 .bad_function_call : Outcome σ ρ)) := by
  have hinv := hw.inv
  have hde : sj.desc = .empty := by
    simpa [function.operator_bool] using hd
  have hnew : function.call E w.objs.length args (w.push ⟨.ptr 0, .empty⟩)
      = (.raise (w.push ⟨.ptr 0, .empty⟩) .bad_function_call : Outcome σ ρ) :=
    invoke_empty args (load_push_new w _) rfl
  have hpush : Inv E (w.push ⟨.ptr 0, .empty⟩) := hinv.push _ wf_default owned_default
  have hassign : ∀ r : Outcome σ Unit,
      (i ≠ j → r = (match storage.swap w.objs.length i (w.push ⟨.ptr 0, .empty⟩) with
        | .ret w2 _ => storage.dtor E w.objs.length w2
        | _ => .fault)) → (i = j → r = .ret w ()) →
      ∃ w1, r = .ret w1 ()
        ∧ function.call E i args w1 = (.raise w1 .bad_function_call : Outcome σ ρ) := by
    intro r h1 h2
    by_cases hij : i = j
    · refine ⟨w, h2 hij, ?_⟩
      subst hij
      exact invoke_empty args hj hde
    · have hlt := load_lt hi
      obtain ⟨w3, he, _, hl, _⟩ := assign_tail hpush (load_push_new w ⟨.ptr 0, .empty⟩)
        (load_push_old ⟨.ptr 0, .empty⟩ hi) (Nat.ne_of_gt hlt)
      refine ⟨w3, by rw [h1 hij]; exact he, ?_⟩
      exact invoke_empty args hl rfl
  refine ⟨rfl, ⟨_, _, rfl, hnew⟩, ⟨_, _, ctor_copy_empty hj hde, hnew⟩,
    ⟨_, _, ctor_move_empty hj hde, hnew⟩, ?_, ?_⟩
  · apply hassign
    · intro hij
      simp only [storage.assign_copy, ne_eq, hij, not_false_eq_true, if_true,
        ctor_copy_empty hj hde]
    · intro hij
      simp [storage.assign_copy, hij]
  · apply hassign
    · intro hij
      simp only [storage.assign_move, ne_eq, hij, not_false_eq_true, if_true,
        ctor_move_empty hj hde]
    · intro hij
      simp [storage.assign_move, hij]

theorem demo_two_reachable : Reachable demo demo_two :=
  Reachable.step .ctor_default
    (Reachable.step (.ctor_from 1 [1, 2, 3]) (Reachable.init 4) rfl :
      Reachable demo ⟨[some ⟨.ptr 1, .of 1⟩], [some [1, 2, 3]], 4⟩) rfl

/-- Witness of C2: in the state holding the heap-backed container `0` and the
empty container `1`, the empty one and every container made or assigned from
it raise `bad_function_call` when invoked with 10. -/
theorem C2_witness :
    bad_function_call_what = "bad function call"
    ∧ (∃ w1 k, storage.ctor_default demo_two = .ret w1 k
        ∧ function.call demo k 10 w1 = .raise w1 .bad_function_call)
    ∧ (∃ w1 k, storage.ctor_copy demo 1 demo_two = .ret w1 k
        ∧ function.call demo k 10 w1 = .raise w1 .bad_function_call)
    ∧ (∃ w1 k, storage.ctor_move demo 1 demo_two = .ret w1 k
        ∧ function.call demo k 10 w1 = .raise w1 .bad_function_call)
    ∧ (∃ w1, storage.assign_copy demo 0 1 demo_two = .ret w1 ()
        ∧ function.call demo 0 10 w1 = .raise w1 .bad_function_call)
    ∧ (∃ w1, storage.assign_move demo 0 1 demo_two = .ret w1 ()
        ∧ function.call demo 0 10 w1 = .raise w1 .bad_function_call) :=
  C2_empty_invoke_raises demo demo_two 0 1 ⟨.ptr 1, .of 1⟩ ⟨.ptr 0, .empty⟩ 10
    demo_two_reachable rfl rfl rfl

theorem demo_moved_reachable : Reachable demo demo_moved :=
  Reachable.step (.ctor_move 0)
    (Reachable.step (.ctor_from 1 [1, 2, 3]) (Reachable.init 4) rfl :
      Reachable demo ⟨[some ⟨.ptr 1, .of 1⟩], [some [1, 2, 3]], 4⟩) rfl

theorem demo_inline_reachable : Reachable demo demo_inline :=
  Reachable.step .ctor_default
    (Reachable.step (.ctor_from 0 [5]) (Reachable.init 4) rfl :
      Reachable demo ⟨[some ⟨.obj [5], .of 0⟩], [], 4⟩) rfl

/-- C5: moving a heap-backed storage `src` whose buffer holds the live block
`p` into another storage `dest` transfers the block without allocating: the
buffer of `dest` holds `p`, the buffer of `src` holds null, the table of `dest`
is the table of `src`, and the free store is untouched. Destroying `src`
afterwards frees nothing; destroying `dest` then frees `p` and nothing else,
so the block is freed once; the other order of destruction does the same. -/
theorem C5_heap_move_transfers (E : Env σ α ρ) (w : World σ) (src dest : Nat)
    (ss sd : storage σ) (t : TypeId) (p : Nat) (v : σ)
    (hs : w.load src = some ss) (hd : ss.desc = .of t)
    (hf : fits_small_storage E t = false) (hb : ss.buf = .ptr p)
    (hdest : w.load dest = some sd) (hne : dest ≠ src) (hv : w.heap_read p = some v) :
    ∃ w1, (ss.desc.deref E).move src dest w = .ret w1 ()
      ∧ w1.load dest = some ⟨.ptr p, ss.desc⟩ ∧ w1.load src = some ⟨.ptr 0, ss.desc⟩
      ∧ w1.heap = w.heap ∧ w1.allocs = w.allocs
      ∧ (∃ w2 w3, storage.dtor E src w1 = .ret w2 () ∧ w2.heap = w.heap
          ∧ storage.dtor E dest w2 = .ret w3 ()
          ∧ ∀ a, w3.heap_read a = if a = p then none else w.heap_read a)
      ∧ (∃ w2 w3, storage.dtor E dest w1 = .ret w2 ()
          ∧ (∀ a, w2.heap_read a = if a = p then none else w.heap_read a)
          ∧ storage.dtor E src w2 = .ret w3 () ∧ w3.heap = w2.heap) := by
  have hls := load_lt hs
  have hld := load_lt hdest
  have hld1 : src < (w.store dest ⟨.ptr p, .of t⟩).objs.length := by
    simpa [World.store] using hls
  have hload : ∀ j, ((w.store dest ⟨.ptr p, .of t⟩).store src ⟨.ptr 0, .of t⟩).load j
      = if j = src then some ⟨.ptr 0, .of t⟩
        else if j = dest then some ⟨.ptr p, .of t⟩ else w.load j := by
    intro j
    rw [load_store _ hld1, load_store _ hld]
  have hread : ∀ a, ((w.store dest ⟨.ptr p, .of t⟩).store src ⟨.ptr 0, .of t⟩).heap_read a
      = w.heap_read a := by
    intro a; rw [heap_read_store, heap_read_store]
  have hl1s := hload src
  have hl1d := hload dest
  simp only [if_true] at hl1s
  simp only [hne, if_false, if_true] at hl1d
  have hmove : (ss.desc.deref E).move src dest w
      = .ret ((w.store dest ⟨.ptr p, .of t⟩).store src ⟨.ptr 0, .of t⟩) () := by
    simp only [hd, deref_heap hf, heap_type_descriptor, hs, hdest, storage.get_dynamic, hb,
      storage.set_dynamic]
  have hheap : ((w.store dest ⟨.ptr p, .of t⟩).store src ⟨.ptr 0, .of t⟩).heap = w.heap := rfl
  generalize (w.store dest ⟨.ptr p, .of t⟩).store src ⟨.ptr 0, .of t⟩ = w1 at *
  have hv1 : w1.heap_read p = some v := by rw [hread]; exact hv
  obtain ⟨wd, hwd⟩ := heap_delete_live hv1
  have hwdr := heap_read_delete hwd
  have hwdo := heap_delete_objs hwd
  refine ⟨w1, hmove, ?_, ?_, hheap, ?_, ?_, ?_⟩
  · rw [hd]; exact hl1d
  · rw [hd]; exact hl1s
  · simp only [World.allocs, hheap]
  · have hk : (w1.kill src).load dest = some ⟨.ptr p, .of t⟩ := by
      rw [load_kill]; simp only [hne, if_false]; exact hl1d
    have hkr : (w1.kill src).heap_read p = some v := by
      rw [heap_read_kill]; exact hv1
    obtain ⟨we, hwe⟩ := heap_delete_live hkr
    refine ⟨w1.kill src, we.kill dest, ?_, ?_, ?_, ?_⟩
    · rw [dtor_heap hl1s rfl hf rfl]; rfl
    · exact hheap
    · rw [dtor_heap hk rfl hf rfl, hwe]
    · intro a
      rw [heap_read_kill, heap_read_delete hwe, heap_read_kill, hread]
  · have hk : (wd.kill dest).load src = some ⟨.ptr 0, .of t⟩ := by
      rw [load_kill]
      simp only [Ne.symm hne, if_false]
      simp only [World.load, hwdo.1]
      exact hl1s
    refine ⟨wd.kill dest, (wd.kill dest).kill src, ?_, ?_, ?_, rfl⟩
    · rw [dtor_heap hl1d rfl hf rfl, hwd]
    · intro a
      rw [heap_read_kill, hwdr, hread]
    · rw [dtor_heap hk rfl hf rfl]; rfl

/-- Witness of C5: in `demo_two` the heap-backed container `0`, holding block
`1`, is moved into container `1`. -/
theorem C5_witness :
    ∃ w1, ((⟨.ptr 1, .of 1⟩ : storage (List Int)).desc.deref demo).move 0 1 demo_two = .ret w1 ()
      ∧ w1.load 1 = some ⟨.ptr 1, .of 1⟩ ∧ w1.load 0 = some ⟨.ptr 0, .of 1⟩
      ∧ w1.heap = demo_two.heap ∧ w1.allocs = demo_two.allocs
      ∧ (∃ w2 w3, storage.dtor demo 0 w1 = .ret w2 () ∧ w2.heap = demo_two.heap
          ∧ storage.dtor demo 1 w2 = .ret w3 ()
          ∧ ∀ a, w3.heap_read a = if a = 1 then none else demo_two.heap_read a)
      ∧ (∃ w2 w3, storage.dtor demo 1 w1 = .ret w2 ()
          ∧ (∀ a, w2.heap_read a = if a = 1 then none else demo_two.heap_read a)
          ∧ storage.dtor demo 0 w2 = .ret w3 () ∧ w3.heap = w2.heap) :=
  C5_heap_move_transfers demo demo_two 0 1 ⟨.ptr 1, .of 1⟩ ⟨.ptr 0, .empty⟩ 1 1 [1, 2, 3]
    rfl rfl rfl rfl rfl (by decide) rfl

theorem demo_big_reachable : Reachable demo demo_big :=
  Reachable.step (.ctor_from 1 [1, 2, 3]) (Reachable.init 4) rfl

/-- C6: the copy `b` of a non-empty container `a` of a reachable state, whose
payload (inline or heap-backed) is present and copyable, is independent of
`a`: it is another object; when the type is heap-backed its buffer points to a
block that was not live before and differs from the block of `a`; any
sequence of calls and writes through `b` returns and leaves `a`, its payload
and what invoking `a` gives as they were before the copy; and any such
sequence through `a` leaves `b`, its payload and what invoking `b` gives as
they were right after the copy. -/
theorem C6_copy_independent (E : Env σ α ρ) (w : World σ) (a : Nat) (sa : storage σ)
    (t : TypeId) (v c : σ) (xs : List (Touch σ α)) (args : α)
    (hw : Reachable E w) (ha : w.load a = some sa) (hd : sa.desc = .of t)
    (hv : w.payload E sa = some v) (hc : (E.types t).copy_ctor v = .ok c)
    (hroom : fits_small_storage E t = false → w.heap.length < w.cap) :
    ∃ w1 b sb, storage.ctor_copy E a w = .ret w1 b ∧ b ≠ a
      ∧ w1.load a = some sa ∧ w1.load b = some sb
      ∧ (fits_small_storage E t = false →
          ∃ p q, sa.buf = .ptr p ∧ sb.buf = .ptr q ∧ q ≠ p
            ∧ w.heap_read q = none ∧ w1.heap_read q = some c)
      ∧ (∃ w2, touches E t b xs w1 = some w2 ∧ w2.load a = some sa
          ∧ w2.payload E sa = some v
          ∧ (function.call E a args w2 : Outcome σ ρ).result
              = (function.call E a args w : Outcome σ ρ).result)
      ∧ (∃ w2, touches E t a xs w1 = some w2 ∧ w2.load b = some sb
          ∧ w2.payload E sb = some c
          ∧ (function.call E b args w2 : Outcome σ ρ).result
              = (function.call E b args w1 : Outcome σ ρ).result) := by
  have hinv := hw.inv
  have hwf := hinv.view a sa ha
  have halt := load_lt ha
  obtain ⟨w1, sb, he, h1, hlb, hdb, hpb, hold, hheap, hfresh, _⟩ :=
    ctor_copy_spec hinv ha hd hv hc hroom
  have hwfb := h1.view _ sb hlb
  have hla : w1.load a = some sa := by
    rw [hold a (Nat.ne_of_lt halt)]; exact ha
  have hpa : w1.payload E sa = w.payload E sa := by
    refine payload_congr ?_
    intro p hp
    cases hf : fits_small_storage E t with
    | true =>
      obtain ⟨v0, hv0⟩ := wf_inline hwf hd hf
      rw [hv0] at hp; cases hp
    | false =>
      have hvp : w.heap_read p = some v := by
        simpa only [World.payload, hd, hf, Bool.false_eq_true, if_false, storage.get_dynamic,
          hp] using hv
      rw [hvp]; exact hheap p v hvp
  refine ⟨w1, w.objs.length, sb, he, Nat.ne_of_gt halt, hla, hlb, ?_, ?_, ?_⟩
  · intro hf
    obtain ⟨p, hp⟩ := wf_heap hwf hd hf
    obtain ⟨q, hq⟩ := wf_heap hwfb hdb hf
    have hvp : w.heap_read p = some v := by
      simpa only [World.payload, hd, hf, Bool.false_eq_true, if_false, storage.get_dynamic,
        hp] using hv
    have hvq : w1.heap_read q = some c := by
      simpa only [World.payload, hdb, hf, Bool.false_eq_true, if_false, storage.get_dynamic,
        hq] using hpb
    refine ⟨p, q, hp, hq, ?_, hfresh q hq, hvq⟩
    intro hqp
    have := hfresh q hq
    rw [hqp, hvp] at this
    cases this
  · obtain ⟨w2, hr, _, hfr⟩ := touches_frame xs h1 hlb hdb hpb
    obtain ⟨hl2, hp2⟩ := hfr a sa (Nat.ne_of_lt halt) hla
    refine ⟨w2, hr, hl2, by rw [hp2, hpa]; exact hv, ?_⟩
    exact invoke_result_congr args ha hl2 hwf (by rw [hp2, hpa])
  · obtain ⟨w2, hr, _, hfr⟩ := touches_frame xs h1 hla hd (by rw [hpa]; exact hv)
    obtain ⟨hl2, hp2⟩ := hfr _ sb (Nat.ne_of_gt halt) hlb
    refine ⟨w2, hr, hl2, by rw [hp2]; exact hpb, ?_⟩
    exact invoke_result_congr args hlb hl2 hwfb hp2

/-- Witness of C6: the container holding the 64-byte closure with capture
`[1, 2, 3]` is copied; writing the capture `[100]` into one of the two and
calling it leaves what the other gives on argument 10 unchanged. -/
theorem C6_witness :
    ∃ w1 b sb, storage.ctor_copy demo 0 demo_big = .ret w1 b ∧ b ≠ 0
      ∧ w1.load 0 = some ⟨.ptr 1, .of 1⟩ ∧ w1.load b = some sb
      ∧ (fits_small_storage demo 1 = false →
          ∃ p q, (⟨.ptr 1, .of 1⟩ : storage (List Int)).buf = .ptr p ∧ sb.buf = .ptr q ∧ q ≠ p
            ∧ demo_big.heap_read q = none ∧ w1.heap_read q = some [1, 2, 3])
      ∧ (∃ w2, touches demo 1 b [.write [100], .call 1] w1 = some w2
          ∧ w2.load 0 = some ⟨.ptr 1, .of 1⟩
          ∧ w2.payload demo ⟨.ptr 1, .of 1⟩ = some [1, 2, 3]
          ∧ (function.call demo 0 10 w2).result = (function.call demo 0 10 demo_big).result)
      ∧ (∃ w2, touches demo 1 0 [.write [100], .call 1] w1 = some w2 ∧ w2.load b = some sb
          ∧ w2.payload demo sb = some [1, 2, 3]
          ∧ (function.call demo b 10 w2).result = (function.call demo b 10 w1).result) :=
  C6_copy_independent demo demo_big 0 ⟨.ptr 1, .of 1⟩ 1 [1, 2, 3] [1, 2, 3]
    [.write [100], .call 1] 10 demo_big_reachable rfl rfl rfl rfl (by decide)

theorem demo_no_copy_reachable : Reachable demo demo_no_copy :=
  Reachable.step (.ctor_from 0 [5])
    (Reachable.step (.ctor_from 3 [9]) (Reachable.init 4) rfl :
      Reachable demo ⟨[some ⟨.ptr 1, .of 3⟩], [some [9]], 4⟩) rfl

/-- C8: copy assignment has the strong guarantee. For every container `a` of
a reachable state, in any state, and every other source `b`: when
constructing the temporary copy of `b` throws `e` (which happens only because
the copy constructor of the payload threw `e`, or because the allocation for a
heap-backed payload failed), the assignment throws `e`, and afterwards the
buffer and table of `a`, every other storage, the payload of `a` and the whole
free store are what they were; no block was added. -/
theorem C8_copy_assign_strong (E : Env σ α ρ) (w w1 : World σ) (a b : Nat) (sa : storage σ)
    (e : Exn) (hw : Reachable E w) (ha : w.load a = some sa) (hne : a ≠ b)
    (hfail : storage.ctor_copy E b w = .raise w1 e) :
    storage.assign_copy E a b w = .raise w1 e
    ∧ w1.load a = some sa ∧ (∀ j, w1.load j = w.load j)
    ∧ w1.heap = w.heap ∧ w1.allocs = w.allocs ∧ w1.payload E sa = w.payload E sa
    ∧ (∃ sb t v, w.load b = some sb ∧ sb.desc = .of t ∧ w.payload E sb = some v
        ∧ ((E.types t).copy_ctor v = .error e
          ∨ (fits_small_storage E t = false ∧ w.cap ≤ w.heap.length ∧ e = .bad_alloc))) := by
  obtain ⟨hw1, hcause⟩ := ctor_copy_raise hw.inv hfail
  have hload : ∀ j, w1.load j = w.load j := by
    intro j; rw [hw1]; exact load_push_none w j
  have hheap : w1.heap = w.heap := by rw [hw1]
  refine ⟨?_, by rw [hload]; exact ha, hload, hheap, ?_, ?_, hcause⟩
  · simp only [storage.assign_copy, ne_eq, hne, not_false_eq_true, if_true, hfail]
  · simp only [World.allocs, hheap]
  · refine payload_congr ?_
    intro p _
    cases p with
    | zero => rfl
    | succ n => simp only [World.heap_read, hheap]

/-- Witness of C8: assigning the container whose payload cannot be copied to
the inline container `1` throws and leaves everything as it was. -/
theorem C8_witness :
    storage.assign_copy demo 1 0 demo_no_copy
      = .raise ⟨[some ⟨.ptr 1, .of 3⟩, some ⟨.obj [5], .of 0⟩, none], [some [9]], 4⟩ (.other 7)
    ∧ (⟨[some ⟨.ptr 1, .of 3⟩, some ⟨.obj [5], .of 0⟩, none], [some [9]], 4⟩ :
        World (List Int)).load 1 = some ⟨.obj [5], .of 0⟩
    ∧ (∀ j, (⟨[some ⟨.ptr 1, .of 3⟩, some ⟨.obj [5], .of 0⟩, none], [some [9]], 4⟩ :
        World (List Int)).load j = demo_no_copy.load j)
    ∧ (⟨[some ⟨.ptr 1, .of 3⟩, some ⟨.obj [5], .of 0⟩, none], [some [9]], 4⟩ :
        World (List Int)).heap = demo_no_copy.heap
    ∧ (⟨[some ⟨.ptr 1, .of 3⟩, some ⟨.obj [5], .of 0⟩, none], [some [9]], 4⟩ :
        World (List Int)).allocs = demo_no_copy.allocs
    ∧ (⟨[some ⟨.ptr 1, .of 3⟩, some ⟨.obj [5], .of 0⟩, none], [some [9]], 4⟩ :
        World (List Int)).payload demo ⟨.obj [5], .of 0⟩
        = demo_no_copy.payload demo ⟨.obj [5], .of 0⟩
    ∧ (∃ sb t v, demo_no_copy.load 0 = some sb ∧ sb.desc = .of t
        ∧ demo_no_copy.payload demo sb = some v
        ∧ ((demo.types t).copy_ctor v = .error (.other 7)
          ∨ (fits_small_storage demo t = false ∧ demo_no_copy.cap ≤ demo_no_copy.heap.length
              ∧ Exn.other 7 = .bad_alloc))) :=
  C8_copy_assign_strong demo demo_no_copy
    ⟨[some ⟨.ptr 1, .of 3⟩, some ⟨.obj [5], .of 0⟩, none], [some [9]], 4⟩ 1 0
    ⟨.obj [5], .of 0⟩ (.other 7) demo_no_copy_reachable rfl (by decide) rfl

theorem demo_thrower_reachable : Reachable demo demo_thrower :=
  Reachable.step (.ctor_from 2 []) (Reachable.init 4) rfl

/-- C9 fails as stated: the container built from the callable that throws
`bad_function_call` itself is non-empty (`operator bool` is true), yet
invoking it raises `bad_function_call`. -/
theorem C9_counterexample :
    Reachable demo demo_thrower
    ∧ demo_thrower.load 0 = some ⟨.obj [], .of 2⟩
    ∧ function.operator_bool (⟨.obj [], .of 2⟩ : storage (List Int)) = true
    ∧ function.call demo 0 10 demo_thrower = .raise demo_thrower .bad_function_call :=
  ⟨demo_thrower_reachable, rfl, rfl, rfl⟩

/-- C9 as amended: in every reachable state `operator bool` of a container is
true exactly when its active table differs from the empty table; it is false
for a default-constructed container and true right after construction from
any callable; when it is false, invoking the container raises
`bad_function_call`; and when invoking raises `bad_function_call`, either it
is false or the contained callable itself raised `bad_function_call`. -/
theorem C9_operator_bool (E : Env σ α ρ) (w : World σ) (i : Nat) (s : storage σ) (args : α)
    (hw : Reachable E w) (hi : w.load i = some s) :
    (function.operator_bool s = true ↔ s.desc ≠ DescPtr.empty)
    ∧ (∃ w1 k sk, storage.ctor_default w = .ret w1 k ∧ w1.load k = some sk
        ∧ function.operator_bool sk = false)
    ∧ (∀ t val w1 k, storage.ctor_from E t val w = .ret w1 k →
        ∃ sk, w1.load k = some sk ∧ function.operator_bool sk = true)
    ∧ (function.operator_bool s = false →
        function.call E i args w = (.raise w .bad_function_call : Outcome σ ρ))
    ∧ ((function.call E i args w : Outcome σ ρ).result = some (.error .bad_function_call) →
        function.operator_bool s = false
        ∨ ∃ t v, s.desc = .of t ∧ w.payload E s = some v
            ∧ ((E.types t).call v args).2 = .error .bad_function_call) := by
  have hwf := hw.inv.view i s hi
  refine ⟨by simp [function.operator_bool], ?_, ?_, ?_, ?_⟩
  · exact ⟨w.push ⟨.ptr 0, .empty⟩, w.objs.length, ⟨.ptr 0, .empty⟩, rfl, load_push_new w _, rfl⟩
  · intro t val w1 k hr
    cases hf : fits_small_storage E t with
    | true =>
      rw [ctor_from_inline val hf] at hr
      cases hc : (E.types t).move_ctor val with
      | ok cr =>
        obtain ⟨c, r⟩ := cr
        simp only [hc, Outcome.ret.injEq] at hr
        rw [← hr.1, ← hr.2]
        exact ⟨_, load_push_new w _, rfl⟩
      | error e1 => rw [hc] at hr; cases hr
    | false =>
      rw [ctor_from_heap val hf] at hr
      cases hn : w.heap_new (((E.types t).move_ctor val).map Prod.fst) with
      | ok aw =>
        obtain ⟨a, w2⟩ := aw
        simp only [hn, Outcome.ret.injEq] at hr
        obtain ⟨c, _, _, hw2⟩ := heap_new_ok hn
        rw [← hr.1, ← hr.2]
        refine ⟨⟨.ptr a, .of t⟩, ?_, rfl⟩
        have := load_push_new w2 ⟨.ptr a, .of t⟩
        rw [hw2] at this ⊢
        exact this
      | error e1 => rw [hn] at hr; cases hr
  · intro hb
    have hd : s.desc = .empty := by simpa [function.operator_bool] using hb
    exact invoke_empty args hi hd
  · intro hr
    unfold function.call at hr
    rw [invoke_result args hi hwf] at hr
    cases hd : s.desc with
    | empty => left; simp [function.operator_bool, hd]
    | of t =>
      right
      rw [hd] at hr
      cases hp : w.payload E s with
      | none => rw [hp] at hr; cases hr
      | some v =>
        rw [hp] at hr
        simp only [Option.map_some', Option.some.injEq] at hr
        exact ⟨t, v, rfl, rfl, hr⟩

/-- Witness of C9 as amended: the container throwing `bad_function_call`. -/
theorem C9_witness :
    (function.operator_bool (⟨.obj [], .of 2⟩ : storage (List Int)) = true
      ↔ (⟨.obj [], .of 2⟩ : storage (List Int)).desc ≠ DescPtr.empty)
    ∧ (∃ w1 k sk, storage.ctor_default demo_thrower = .ret w1 k ∧ w1.load k = some sk
        ∧ function.operator_bool sk = false)
    ∧ (∀ t val w1 k, storage.ctor_from demo t val demo_thrower = .ret w1 k →
        ∃ sk, w1.load k = some sk ∧ function.operator_bool sk = true)
    ∧ (function.operator_bool (⟨.obj [], .of 2⟩ : storage (List Int)) = false →
        function.call demo 0 10 demo_thrower = .raise demo_thrower .bad_function_call)
    ∧ ((function.call demo 0 10 demo_thrower).result = some (.error .bad_function_call) →
        function.operator_bool (⟨.obj [], .of 2⟩ : storage (List Int)) = false
        ∨ ∃ t v, (⟨.obj [], .of 2⟩ : storage (List Int)).desc = .of t
            ∧ demo_thrower.payload demo ⟨.obj [], .of 2⟩ = some v
            ∧ ((demo.types t).call v 10).2 = .error .bad_function_call) :=
  C9_operator_bool demo demo_thrower 0 ⟨.obj [], .of 2⟩ 10 demo_thrower_reachable rfl

/-- C12: the placement predicate `fits_small_storage<T>` is true if and only
if `sizeof(T)` is at most the buffer size, which is `sizeof(void*)`,
`alignof(T)` divides the buffer alignment, which is `alignof(void*)`, and `T`
is nothrow-move-constructible. The three members of `function_traits<T>` are
those of the inline specialisation when the predicate is true and those of
the heap-backed specialisation when it is false, and the predicate is one of
the two, never both. -/
theorem C12_placement (E : Env σ α ρ) (t : TypeId) :
    INPLACE_BUFFER_SIZE E = E.ptr_size ∧ INPLACE_BUFFER_ALIGNMENT E = E.ptr_align
    ∧ (fits_small_storage E t = true ↔
        ((E.types t).size ≤ INPLACE_BUFFER_SIZE E
          ∧ (E.types t).align ∣ INPLACE_BUFFER_ALIGNMENT E
          ∧ (E.types t).nothrow_move = true))
    ∧ (fits_small_storage E t = true ∨ fits_small_storage E t = false)
    ∧ ¬ (fits_small_storage E t = true ∧ fits_small_storage E t = false)
    ∧ (get_type_descriptor E t
        = if fits_small_storage E t then inline_type_descriptor E t
          else heap_type_descriptor E t)
    ∧ (∀ src (s : storage σ), get_target E t src s
        = if fits_small_storage E t then some (.buf src) else s.get_dynamic.map Ptr.of_addr)
    ∧ (∀ obj (w : World σ), fits_small_storage E t = true →
        ∀ w1 b, initialize_storage E t obj w = .ret w1 b → w1 = w ∧ ∃ c, b = .obj c)
    ∧ (∀ obj (w : World σ), fits_small_storage E t = false →
        ∀ w1 b, initialize_storage E t obj w = .ret w1 b →
          b = .ptr (w.heap.length + 1) ∧ (w1.heap_read (w.heap.length + 1)).isSome = true) := by
  refine ⟨rfl, rfl, ?_, ?_, ?_, rfl, fun _ _ => rfl, ?_, ?_⟩
  · simp only [fits_small_storage, Bool.and_eq_true, decide_eq_true_eq,
      Nat.dvd_iff_mod_eq_zero, and_assoc]
  · cases fits_small_storage E t <;> simp
  · intro h
    rw [h.1] at h
    exact absurd h.2 (by simp)
  · intro obj w hf w1 b hr
    simp only [initialize_storage, hf, if_true] at hr
    cases hc : (E.types t).move_ctor obj with
    | ok cr =>
      obtain ⟨c, r⟩ := cr
      simp only [hc, Outcome.ret.injEq] at hr
      exact ⟨hr.1.symm, c, hr.2.symm⟩
    | error e => rw [hc] at hr; cases hr
  · intro obj w hf w1 b hr
    simp only [initialize_storage, hf, Bool.false_eq_true, if_false] at hr
    cases hn : w.heap_new (((E.types t).move_ctor obj).map Prod.fst) with
    | ok aw =>
      obtain ⟨a, w2⟩ := aw
      simp only [hn, Outcome.ret.injEq] at hr
      obtain ⟨c, _, ha, hw2⟩ := heap_new_ok hn
      rw [← hr.1, ← hr.2, ha, hw2, heap_read_append]
      simp
    | error e => rw [hn] at hr; cases hr

/-- C16: self-assignment is a no-op. For every storage address `a` of every
state, copy-assigning `a` to itself and move-assigning `a` to itself return
in the very same state: the buffer and table of `a` and of every other
storage are unchanged, nothing is allocated and nothing is destroyed. -/
theorem C16_self_assignment (E : Env σ α ρ) (w : World σ) (a : Nat) :
    storage.assign_copy E a a w = .ret w () ∧ storage.assign_move E a a w = .ret w () := by
  constructor
  · simp [storage.assign_copy]
  · simp [storage.assign_move]

/-- C17: after move-constructing a container from a heap-backed container
`s` of a reachable state holding type `t`, the source still has `operator
bool` true and `check_type<T>()` true, its table being unchanged, yet the
pointer in its buffer is null and so `target<T>()` returns the null pointer. -/
theorem C17_moved_from_heap (E : Env σ α ρ) (w : World σ) (s : Nat) (ss : storage σ)
    (t : TypeId) (hw : Reachable E w) (hs : w.load s = some ss) (hd : ss.desc = .of t)
    (hf : fits_small_storage E t = false) :
    ∃ w1 d s1, storage.ctor_move E s w = .ret w1 d ∧ w1.load s = some s1
      ∧ function.operator_bool s1 = true ∧ s1.check_type t = true ∧ s1.desc = ss.desc
      ∧ s1.buf = .ptr 0 ∧ function.target E t s w1 = some .null := by
  have hwf := hw.inv.view s ss hs
  have hlt := load_lt hs
  obtain ⟨p, hp⟩ := wf_heap hwf hd hf
  have hl : ((w.store s ⟨.ptr 0, .of t⟩).push ⟨.ptr p, .of t⟩).load s
      = some ⟨.ptr 0, .of t⟩ := by
    rw [load_push, load_store _ hlt]
    have : s ≠ (w.store s ⟨.ptr 0, .of t⟩).objs.length := by
      simp only [World.store, List.length_set]; exact Nat.ne_of_lt hlt
    simp [this]
  refine ⟨_, _, ⟨.ptr 0, .of t⟩, ctor_move_heap hs hd hf hp, hl, rfl, ?_, hd.symm, rfl, ?_⟩
  · simp [storage.check_type]
  · rw [target_load t hl]
    simp [function.operator_bool, storage.check_type, get_target, hf, storage.get_dynamic,
      Ptr.of_addr]

/-- Witness of C17: container `0` of `demo_big`, holding the 64-byte closure,
is the source of a move construction. -/
theorem C17_witness :
    ∃ w1 d s1, storage.ctor_move demo 0 demo_big = .ret w1 d ∧ w1.load 0 = some s1
      ∧ function.operator_bool s1 = true ∧ s1.check_type 1 = true
      ∧ s1.desc = (⟨.ptr 1, .of 1⟩ : storage (List Int)).desc
      ∧ s1.buf = .ptr 0 ∧ function.target demo 1 0 w1 = some .null :=
  C17_moved_from_heap demo demo_big 0 ⟨.ptr 1, .of 1⟩ 1 demo_big_reachable rfl rfl rfl

/-- C19: `storage::swap` exchanges the complete state of two storages. For
all live storages `a` and `b`, `a.swap(b)` returns; afterwards `a` has the
former buffer and table of `b` and `b` those of `a`, every other storage and
the free store are untouched, so nothing is allocated and no payload is
destroyed; `b.swap(a)` leads to the same state; and swapping again restores
the state. -/
theorem C19_swap_exchanges (w : World σ) (a b : Nat) (sa sb : storage σ)
    (ha : w.load a = some sa) (hb : w.load b = some sb) :
    ∃ w1, storage.swap a b w = .ret w1 ()
      ∧ w1.load a = some sb ∧ w1.load b = some sa
      ∧ (∀ j, j ≠ a → j ≠ b → w1.load j = w.load j)
      ∧ w1.heap = w.heap ∧ w1.allocs = w.allocs ∧ w1.cap = w.cap
      ∧ w1.objs.length = w.objs.length
      ∧ storage.swap b a w = .ret w1 ()
      ∧ storage.swap a b w1 = .ret w () := by
  obtain ⟨he, hload⟩ := swap_load ha hb
  obtain ⟨he2, _⟩ := swap_load hb ha
  have hla : ((w.store a sb).store b sa).load a = some sb := by
    rw [hload]
    by_cases hab : a = b
    · subst hab
      rw [ha] at hb
      simp [hb]
    · simp [hab]
  have hlb : ((w.store a sb).store b sa).load b = some sa := by
    rw [hload]; simp
  have hcomm : (w.store b sa).store a sb = (w.store a sb).store b sa := by
    by_cases hab : a = b
    · subst hab
      have : sa = sb := by rw [ha] at hb; exact Option.some.inj hb
      subst this
      rfl
    · exact store_store_comm w sa sb (Ne.symm hab)
  refine ⟨(w.store a sb).store b sa, he, hla, hlb, ?_, rfl, rfl, rfl, ?_, ?_, ?_⟩
  · intro j hja hjb
    rw [hload]; simp [hja, hjb]
  · simp [World.store]
  · rw [he2, hcomm]
  · obtain ⟨he3, _⟩ := swap_load hla hlb
    rw [he3]
    by_cases hab : a = b
    · subst hab
      have : sa = sb := by rw [ha] at hb; exact Option.some.inj hb
      subst this
      simp only [store_store_same, store_load_self ha]
    · rw [store_store_comm (w.store a sb) sa sa (Ne.symm hab), store_store_same,
        store_store_same, store_load_self ha, store_load_self hb]

/-- Witness of C19: the heap-backed container `0` and the empty container `1`
of `demo_two` are swapped. -/
theorem C19_witness :
    ∃ w1, storage.swap 0 1 demo_two = .ret w1 ()
      ∧ w1.load 0 = some ⟨.ptr 0, .empty⟩ ∧ w1.load 1 = some ⟨.ptr 1, .of 1⟩
      ∧ (∀ j, j ≠ 0 → j ≠ 1 → w1.load j = demo_two.load j)
      ∧ w1.heap = demo_two.heap ∧ w1.allocs = demo_two.allocs ∧ w1.cap = demo_two.cap
      ∧ w1.objs.length = demo_two.objs.length
      ∧ storage.swap 1 0 demo_two = .ret w1 ()
      ∧ storage.swap 0 1 w1 = .ret demo_two () :=
  C19_swap_exchanges demo_two 0 1 ⟨.ptr 1, .of 1⟩ ⟨.ptr 0, .empty⟩ rfl rfl

/-- C14: the ownership invariant. In every state reached by any sequence of
constructions, copies, moves, assignments, swaps, calls and destructions:
every live block is pointed to by the buffer of exactly one live storage;
every non-null pointer in the buffer of a live heap-backed storage points to
a live block; the destructor of every live storage returns, so no block is
freed twice, and leads to a reachable state; and when all storages are
destroyed no storage and no live block is left. -/
theorem C14_ownership (E : Env σ α ρ) (w : World σ) (hw : Reachable E w) :
    (∀ a, w.is_live a = true →
      ∃ i s, w.load i = some s ∧ s.buf = .ptr a
        ∧ ∀ j sj, w.load j = some sj → sj.buf = .ptr a → j = i)
    ∧ (∀ i s t p, w.load i = some s → s.desc = .of t → fits_small_storage E t = false →
        s.buf = .ptr p → p ≠ 0 → w.is_live p = true)
    ∧ (∀ i s, w.load i = some s →
        ∃ w1, storage.dtor E i w = .ret w1 () ∧ Reachable E w1
          ∧ ∀ a, w1.is_live a = true → w.is_live a = true)
    ∧ (∃ w1, storage.dtor_all E w.objs.length w = some w1
        ∧ (∀ i, w1.load i = none) ∧ (∀ a, w1.is_live a = false)) := by
  have hinv := hw.inv
  refine ⟨?_, ?_, ?_, ?_⟩
  · intro a ha
    have ha0 : a ≠ 0 := by
      intro hc; subst hc
      simp [World.is_live, World.heap_read] at ha
    obtain ⟨i, hown⟩ := hinv.noleak a ha
    cases hi : w.load i with
    | none => simp [World.own, hi] at hown
    | some s =>
      rw [own_of_load hi] at hown
      refine ⟨i, s, hi, (buf_of_owned hown).1, ?_⟩
      intro j sj hj hb
      have hoj := owned_of_buf (hinv.view j sj hj) hb ha0
      exact hinv.excl j i a (by rw [own_of_load hj]; exact hoj)
        (by rw [own_of_load hi]; exact hown)
  · intro i s t p hi hd hf hb hp0
    refine hinv.live i p ?_
    rw [own_of_load hi, owned_heap (E := E) hd hf hb]
    simp [hp0]
  · intro i s hi
    obtain ⟨w1, he, _, _, hh, _⟩ := dtor_spec hinv hi
    refine ⟨w1, he, Reachable.step (.dtor i) hw (by simp [Op.run, he, Outcome.world]), ?_⟩
    intro a ha
    simp only [World.is_live, hh] at ha ⊢
    by_cases hc : s.owned E = some a
    · simp [hc] at ha
    · simpa [hc] using ha
  · obtain ⟨w1, he, h1, hl⟩ := dtor_all_spec w.objs.length hinv
    have hnone : ∀ i, w1.load i = none := by
      intro i
      rw [hl]
      by_cases hi : i < w.objs.length
      · simp [hi]
      · simp only [hi, if_false]
        unfold World.load
        rw [List.getD_eq_default _ _ (Nat.le_of_not_lt hi)]
    refine ⟨w1, he, hnone, ?_⟩
    intro a
    by_contra hc
    have hlive : w1.is_live a = true := by
      cases hx : w1.is_live a with
      | true => rfl
      | false => exact absurd hx hc
    obtain ⟨i, hi⟩ := h1.noleak a hlive
    simp [World.own, hnone] at hi

/-- Witness of C14: the state `demo_moved`, with a moved-from storage and the
storage that took over its block. -/
theorem C14_witness :
    (∀ a, demo_moved.is_live a = true →
      ∃ i s, demo_moved.load i = some s ∧ s.buf = .ptr a
        ∧ ∀ j sj, demo_moved.load j = some sj → sj.buf = .ptr a → j = i)
    ∧ (∀ i s t p, demo_moved.load i = some s → s.desc = .of t →
        fits_small_storage demo t = false → s.buf = .ptr p → p ≠ 0 →
        demo_moved.is_live p = true)
    ∧ (∀ i s, demo_moved.load i = some s →
        ∃ w1, storage.dtor demo i demo_moved = .ret w1 () ∧ Reachable demo w1
          ∧ ∀ a, w1.is_live a = true → demo_moved.is_live a = true)
    ∧ (∃ w1, storage.dtor_all demo demo_moved.objs.length demo_moved = some w1
        ∧ (∀ i, w1.load i = none) ∧ (∀ a, w1.is_live a = false)) :=
  C14_ownership demo demo_moved demo_moved_reachable

/-- C11: counting allocations as the number of blocks handed out so far. In a
reachable state: constructing a container from an inline-eligible type
allocates nothing, and so do copy construction, move construction, copy and
move assignment to any container, and destruction, of a container holding an
inline payload or nothing; constructing a container from a non-eligible type
allocates exactly one block; copy-constructing a heap-backed container
allocates exactly one block; move-constructing it allocates none. -/
theorem C11_allocation_count (E : Env σ α ρ) (w : World σ) (i : Nat) (s : storage σ)
    (hw : Reachable E w) (hi : w.load i = some s) :
    (∀ t val w1, fits_small_storage E t = true →
        (storage.ctor_from E t val w).world = some w1 → w1.allocs = w.allocs)
    ∧ (∀ t val w1 k, fits_small_storage E t = false →
        storage.ctor_from E t val w = .ret w1 k → w1.allocs = w.allocs + 1)
    ∧ (s.is_heap E = false →
        (∀ w1, (storage.ctor_copy E i w).world = some w1 → w1.allocs = w.allocs)
        ∧ (∀ w1, (storage.ctor_move E i w).world = some w1 → w1.allocs = w.allocs)
        ∧ (∀ k sk w1, w.load k = some sk →
            (storage.assign_copy E k i w).world = some w1 → w1.allocs = w.allocs)
        ∧ (∀ k sk w1, w.load k = some sk →
            (storage.assign_move E k i w).world = some w1 → w1.allocs = w.allocs)
        ∧ (∀ w1, (storage.dtor E i w).world = some w1 → w1.allocs = w.allocs))
    ∧ (s.is_heap E = true →
        (∀ w1 k, storage.ctor_copy E i w = .ret w1 k → w1.allocs = w.allocs + 1)
        ∧ (∀ w1, (storage.ctor_move E i w).world = some w1 → w1.allocs = w.allocs)) := by
  have hinv := hw.inv
  have hmove : ∀ w1, (storage.ctor_move E i w).world = some w1 → w1.allocs = w.allocs := by
    intro w1 hr
    obtain ⟨_, _, _, _, _, hheap⟩ := ctor_move_frame hinv hi hr
    simp only [World.allocs, hheap]
  refine ⟨?_, ?_, ?_, ?_⟩
  · intro t val w1 hf hr
    rw [ctor_from_inline val hf] at hr
    cases hc : (E.types t).move_ctor val with
    | ok cr =>
      obtain ⟨c, r⟩ := cr
      simp only [hc, Outcome.world, Option.some.injEq] at hr
      subst hr
      rfl
    | error e => simp [hc, Outcome.world] at hr
  · intro t val w1 k hf hr
    rw [ctor_from_heap val hf] at hr
    cases hn : w.heap_new (((E.types t).move_ctor val).map Prod.fst) with
    | ok aw =>
      obtain ⟨a, w2⟩ := aw
      simp only [hn, Outcome.ret.injEq] at hr
      obtain ⟨c, _, _, hw2⟩ := heap_new_ok hn
      rw [← hr.1, hw2]
      simp [World.allocs, World.push]
    | error e => rw [hn] at hr; cases hr
  · intro hh
    refine ⟨?_, hmove, ?_, ?_, ?_⟩
    · intro w1 hr
      obtain ⟨_, _, hret, hraise⟩ := ctor_copy_frame hinv hi hr
      cases hc : storage.ctor_copy E i w with
      | fault => rw [hc] at hr; cases hr
      | raise w2 e =>
        have : w2 = w1 := by
          rw [hc] at hr; simpa [Outcome.world] using hr
        subst this
        simp only [World.allocs, hraise e hc]
      | ret w2 k =>
        have : w2 = w1 := by
          rw [hc] at hr; simpa [Outcome.world] using hr
        subst this
        have := (hret k hc).2.2
        simpa [hh] using this
    · intro k sk w1 hk hr
      obtain ⟨_, hlo, hup⟩ := assign_copy_frame hinv hk hi hr
      simp only [hh, Bool.false_eq_true, if_false, Nat.add_zero] at hup
      exact Nat.le_antisymm hup hlo
    · intro k sk w1 hk hr
      exact (assign_move_frame hinv hk hi hr).2
    · intro w1 hr
      obtain ⟨w2, he, _, _, _, _, hlen, _⟩ := dtor_spec hinv hi
      rw [he] at hr
      simp only [Outcome.world, Option.some.injEq] at hr
      subst hr
      exact hlen
  · intro hh
    refine ⟨?_, hmove⟩
    intro w1 k hc
    obtain ⟨_, _, hret, _⟩ := ctor_copy_frame hinv hi (by rw [hc]; rfl)
    have := (hret k hc).2.2
    simpa [hh] using this

/-- Witness of C11: the state `demo_two` and its heap-backed container `0`. -/
theorem C11_witness :
    (∀ t val w1, fits_small_storage demo t = true →
        (storage.ctor_from demo t val demo_two).world = some w1 → w1.allocs = demo_two.allocs)
    ∧ (∀ t val w1 k, fits_small_storage demo t = false →
        storage.ctor_from demo t val demo_two = .ret w1 k → w1.allocs = demo_two.allocs + 1)
    ∧ ((⟨.ptr 1, .of 1⟩ : storage (List Int)).is_heap demo = false →
        (∀ w1, (storage.ctor_copy demo 0 demo_two).world = some w1 →
            w1.allocs = demo_two.allocs)
        ∧ (∀ w1, (storage.ctor_move demo 0 demo_two).world = some w1 →
            w1.allocs = demo_two.allocs)
        ∧ (∀ k sk w1, demo_two.load k = some sk →
            (storage.assign_copy demo k 0 demo_two).world = some w1 →
            w1.allocs = demo_two.allocs)
        ∧ (∀ k sk w1, demo_two.load k = some sk →
            (storage.assign_move demo k 0 demo_two).world = some w1 →
            w1.allocs = demo_two.allocs)
        ∧ (∀ w1, (storage.dtor demo 0 demo_two).world = some w1 →
            w1.allocs = demo_two.allocs))
    ∧ ((⟨.ptr 1, .of 1⟩ : storage (List Int)).is_heap demo = true →
        (∀ w1 k, storage.ctor_copy demo 0 demo_two = .ret w1 k →
            w1.allocs = demo_two.allocs + 1)
        ∧ (∀ w1, (storage.ctor_move demo 0 demo_two).world = some w1 →
            w1.allocs = demo_two.allocs))
    ∧ demo_two.allocs = 1
    ∧ (storage.ctor_from demo 0 [5] demo_two).world.map World.allocs = some 1
    ∧ (storage.ctor_from demo 1 [7] demo_two).world.map World.allocs = some 2
    ∧ (storage.ctor_copy demo 0 demo_two).world.map World.allocs = some 2
    ∧ (storage.ctor_move demo 0 demo_two).world.map World.allocs = some 1
    ∧ (storage.ctor_copy demo 1 demo_two).world.map World.allocs = some 1 :=
  ⟨(C11_allocation_count demo demo_two 0 ⟨.ptr 1, .of 1⟩ demo_two_reachable rfl).1,
    (C11_allocation_count demo demo_two 0 ⟨.ptr 1, .of 1⟩ demo_two_reachable rfl).2.1,
    (C11_allocation_count demo demo_two 0 ⟨.ptr 1, .of 1⟩ demo_two_reachable rfl).2.2.1,
    (C11_allocation_count demo demo_two 0 ⟨.ptr 1, .of 1⟩ demo_two_reachable rfl).2.2.2,
    rfl, rfl, rfl, rfl, rfl, rfl⟩

/-- C15 fails as stated: container `0` of `demo_thrower` holds an inline
callable that throws `bad_function_call` itself; after it has been the source
of a move construction it keeps its table, and invoking it raises
`bad_function_call`. -/
theorem C15_counterexample :
    Reachable demo demo_thrower
    ∧ fits_small_storage demo 2 = true
    ∧ storage.ctor_move demo 0 demo_thrower = .ret demo_thrower_moved 1
    ∧ demo_thrower_moved.load 0 = some ⟨.obj [], .of 2⟩
    ∧ function.operator_bool (⟨.obj [], .of 2⟩ : storage (List Int)) = true
    ∧ function.call demo 0 10 demo_thrower_moved
        = .raise demo_thrower_moved .bad_function_call :=
  ⟨demo_thrower_reachable, rfl, rfl, rfl, rfl, rfl⟩

/-- C15 as amended: in a reachable state, invoking a container, and using it
as the source of a copy construction, of a move construction, or of a copy or
move assignment to another container, all leave its active table unchanged
(`operator bool` and `target` only read the state), so a container holding
type `t` goes on holding type `t`; in particular an inline-stored source of a
move keeps the table of `t`, `operator bool` stays true, and invoking it calls
the moved-from payload, so it raises `bad_function_call` only if that payload
itself does. -/
theorem C15_table_stable (E : Env σ α ρ) (w : World σ) (i : Nat) (s : storage σ)
    (hw : Reachable E w) (hi : w.load i = some s) :
    (∀ args w1, (function.call E i args w : Outcome σ ρ).world = some w1 →
        ∃ s1, w1.load i = some s1 ∧ s1.desc = s.desc)
    ∧ (∀ w1, (storage.ctor_copy E i w).world = some w1 → w1.load i = some s)
    ∧ (∀ w1, (storage.ctor_move E i w).world = some w1 →
        ∃ s1, w1.load i = some s1 ∧ s1.desc = s.desc)
    ∧ (∀ k sk w1, w.load k = some sk → k ≠ i →
        (storage.assign_copy E k i w).world = some w1 → w1.load i = some s)
    ∧ (∀ k sk w1, w.load k = some sk → k ≠ i →
        (storage.assign_move E k i w).world = some w1 →
        ∃ s1, w1.load i = some s1 ∧ s1.desc = s.desc)
    ∧ (∀ t v c r, s.desc = .of t → fits_small_storage E t = true → s.buf = .obj v →
        (E.types t).move_ctor v = .ok (c, r) →
        ∃ w1 d s1, storage.ctor_move E i w = .ret w1 d ∧ w1.load i = some s1
          ∧ s1.desc = .of t ∧ function.operator_bool s1 = true
          ∧ w1.payload E s1 = some r
          ∧ ∀ args, (function.call E i args w1 : Outcome σ ρ).result
              = some ((E.types t).call r args).2) := by
  have hinv := hw.inv
  have hlt := load_lt hi
  refine ⟨?_, ?_, ?_, ?_, ?_, ?_⟩
  · intro args w1 hr
    exact invoke_frame hinv hi hr
  · intro w1 hr
    obtain ⟨hl, _⟩ := ctor_copy_frame hinv hi hr
    rw [hl i (Nat.ne_of_lt hlt)]; exact hi
  · intro w1 hr
    exact (ctor_move_frame hinv hi hr).2.2.1
  · intro k sk w1 hk hki hr
    exact (assign_copy_frame hinv hk hi hr).1 hki
  · intro k sk w1 hk _ hr
    exact (assign_move_frame hinv hk hi hr).1
  · intro t v c r hd hf hb hm
    have he := ctor_move_inline hi hd hf hb
    rw [hm] at he
    have hl : ((w.store i ⟨.obj r, .of t⟩).push ⟨.obj c, .of t⟩).load i
        = some ⟨.obj r, .of t⟩ := by
      rw [load_push, load_store _ hlt]
      have : i ≠ (w.store i ⟨.obj r, .of t⟩).objs.length := by
        simp only [World.store, List.length_set]; exact Nat.ne_of_lt hlt
      simp [this]
    refine ⟨_, _, ⟨.obj r, .of t⟩, he, hl, rfl, rfl, payload_inline _ r hf, ?_⟩
    intro args
    unfold function.call
    rw [invoke_inline args hl rfl hf rfl]
    rcases (E.types t).call r args with ⟨v1, x | x⟩ <;> rfl

/-- Witness of C15 as amended: container `0` of `demo_inline`, which holds the
closure adding 5 inline. -/
theorem C15_witness :
    (∀ args w1, (function.call demo 0 args demo_inline).world = some w1 →
        ∃ s1, w1.load 0 = some s1 ∧ s1.desc = (⟨.obj [5], .of 0⟩ : storage (List Int)).desc)
    ∧ (∀ w1, (storage.ctor_copy demo 0 demo_inline).world = some w1 →
        w1.load 0 = some ⟨.obj [5], .of 0⟩)
    ∧ (∀ w1, (storage.ctor_move demo 0 demo_inline).world = some w1 →
        ∃ s1, w1.load 0 = some s1 ∧ s1.desc = (⟨.obj [5], .of 0⟩ : storage (List Int)).desc)
    ∧ (∀ k sk w1, demo_inline.load k = some sk → k ≠ 0 →
        (storage.assign_copy demo k 0 demo_inline).world = some w1 →
        w1.load 0 = some ⟨.obj [5], .of 0⟩)
    ∧ (∀ k sk w1, demo_inline.load k = some sk → k ≠ 0 →
        (storage.assign_move demo k 0 demo_inline).world = some w1 →
        ∃ s1, w1.load 0 = some s1 ∧ s1.desc = (⟨.obj [5], .of 0⟩ : storage (List Int)).desc)
    ∧ (∀ t v c r, (⟨.obj [5], .of 0⟩ : storage (List Int)).desc = .of t →
        fits_small_storage demo t = true →
        (⟨.obj [5], .of 0⟩ : storage (List Int)).buf = .obj v →
        (demo.types t).move_ctor v = .ok (c, r) →
        ∃ w1 d s1, storage.ctor_move demo 0 demo_inline = .ret w1 d ∧ w1.load 0 = some s1
          ∧ s1.desc = .of t ∧ function.operator_bool s1 = true
          ∧ w1.payload demo s1 = some r
          ∧ ∀ args, (function.call demo 0 args w1).result
              = some ((demo.types t).call r args).2) :=
  C15_table_stable demo demo_inline 0 ⟨.obj [5], .of 0⟩ demo_inline_reachable rfl

end Claims

end FunctionTask
